import Mathlib

/-!
Verification of the workflow synthesis and validation pipeline
(`app/services/ai_service.py`) of the AI-Task-Architect repository.

The Python source is shallowly embedded: dictionaries become ordered
association lists (Python dicts preserve insertion order and have unique
keys), JSON values that the code distinguishes between "key absent",
"key null" and "key present" become the `JField` type, fallible code
returns `Except PyErr`, and every call to an external collaborator
(the OpenAI client, `json.loads` on free-form text) is a parameter of
the embedding.
-/

namespace AITaskArchitect

/- ============================================================
   String utilities: Python `x in s` substring test, `.lower()`,
   `.strip()`.
   ============================================================ -/

/-- Model of Python list/str slicing helper: does `n` start `h`? -/
def startsWithChars : List Char → List Char → Bool
  | [], _ => true
  | _ :: _, [] => false
  | a :: as, b :: bs => a == b && startsWithChars as bs

/-- Model of Python `n in h` substring containment on char lists. -/
def occursIn (n : List Char) : List Char → Bool
  | [] => startsWithChars n []
  | c :: t => startsWithChars n (c :: t) || occursIn n t

/-- Model of Python `needle in hay` for strings. -/
def strContains (hay needle : String) : Bool :=
  occursIn needle.data hay.data

/-- Model of Python `s.lower()` (ASCII payloads only are used). -/
def lowerChars (l : List Char) : List Char := l.map Char.toLower

/-- Model of Python `s.strip()`. -/
def stripChars (l : List Char) : List Char :=
  ((l.dropWhile Char.isWhitespace).reverse.dropWhile Char.isWhitespace).reverse

theorem startsWithChars_iff (n h : List Char) :
    startsWithChars n h = true ↔ ∃ t, h = n ++ t := by
  induction n generalizing h with
  | nil => simp [startsWithChars]
  | cons a as ih =>
    cases h with
    | nil =>
      simp [startsWithChars]
    | cons b bs =>
      simp only [startsWithChars, Bool.and_eq_true, beq_iff_eq, ih, List.cons_append,
        List.cons.injEq]
      constructor
      · rintro ⟨rfl, t, rfl⟩; exact ⟨t, rfl, rfl⟩
      · rintro ⟨t, rfl, rfl⟩; exact ⟨rfl, t, rfl⟩

theorem occursIn_iff (n h : List Char) :
    occursIn n h = true ↔ ∃ p t, h = p ++ n ++ t := by
  induction h with
  | nil =>
    simp only [occursIn, startsWithChars_iff]
    constructor
    · rintro ⟨t, ht⟩
      exact ⟨[], t, by simpa using ht⟩
    · rintro ⟨p, t, ht⟩
      have hp : p = [] := by
        cases p with
        | nil => rfl
        | cons x xs => simp at ht
      subst hp
      exact ⟨t, by simpa using ht⟩
  | cons c t ih =>
    simp only [occursIn, Bool.or_eq_true, startsWithChars_iff, ih]
    constructor
    · rintro (⟨u, hu⟩ | ⟨p, u, hu⟩)
      · exact ⟨[], u, by simpa using hu⟩
      · exact ⟨c :: p, u, by simp [hu]⟩
    · rintro ⟨p, u, hu⟩
      cases p with
      | nil =>
        exact Or.inl ⟨u, by simpa using hu⟩
      | cons x xs =>
        simp only [List.cons_append, List.cons.injEq] at hu
        exact Or.inr ⟨xs, u, by simp [hu.1, hu.2]⟩

theorem occursIn_append_right (n a b : List Char) (h : occursIn n b = true) :
    occursIn n (a ++ b) = true := by
  rcases (occursIn_iff n b).mp h with ⟨p, t, rfl⟩
  exact (occursIn_iff n _).mpr ⟨a ++ p, t, by simp⟩

theorem occursIn_of_middle (n p t : List Char) :
    occursIn n (p ++ n ++ t) = true :=
  (occursIn_iff n _).mpr ⟨p, t, rfl⟩

/-- An occurrence inside an infix chunk is an occurrence in the whole list. -/
theorem occursIn_of_occursIn_chunk (n a m b : List Char)
    (h : occursIn n m = true) : occursIn n (a ++ m ++ b) = true := by
  rcases (occursIn_iff n m).mp h with ⟨p, t, rfl⟩
  exact (occursIn_iff n _).mpr ⟨a ++ p, t ++ b, by simp⟩

theorem stripChars_chunk (l : List Char) :
    ∃ a b, l = a ++ stripChars l ++ b := by
  have h1 : l = l.takeWhile Char.isWhitespace ++ l.dropWhile Char.isWhitespace :=
    (List.takeWhile_append_dropWhile (p := Char.isWhitespace) (l := l)).symm
  set m := l.dropWhile Char.isWhitespace with hm
  have h2 : m.reverse
      = m.reverse.takeWhile Char.isWhitespace ++ m.reverse.dropWhile Char.isWhitespace :=
    (List.takeWhile_append_dropWhile (p := Char.isWhitespace) (l := m.reverse)).symm
  have h3 : m = (m.reverse.dropWhile Char.isWhitespace).reverse
      ++ (m.reverse.takeWhile Char.isWhitespace).reverse := by
    have h4 := congrArg List.reverse h2
    rw [List.reverse_append, List.reverse_reverse] at h4
    exact h4
  refine ⟨l.takeWhile Char.isWhitespace, (m.reverse.takeWhile Char.isWhitespace).reverse, ?_⟩
  have hstrip : stripChars l = (m.reverse.dropWhile Char.isWhitespace).reverse := by
    rw [stripChars, ← hm]
  calc l = l.takeWhile Char.isWhitespace ++ m := h1
    _ = l.takeWhile Char.isWhitespace ++ ((m.reverse.dropWhile Char.isWhitespace).reverse
        ++ (m.reverse.takeWhile Char.isWhitespace).reverse) := by rw [← h3]
    _ = _ := by rw [hstrip, List.append_assoc]

/-- If a token does not occur in a string, it does not occur in its strip. -/
theorem occursIn_stripChars_false (n l : List Char) (h : occursIn n l = false) :
    occursIn n (stripChars l) = false := by
  by_contra hc
  rcases stripChars_chunk l with ⟨a, b, hl⟩
  have : occursIn n l = true := by
    rw [hl]
    exact occursIn_of_occursIn_chunk _ _ _ _ (by simpa using hc)
  rw [h] at this
  exact absurd this (by simp)

/- ============================================================
   Data model.

   A connections value is a Python dict from source-node name to
   an edge-group dict; Python dicts are ordered with unique keys,
   so they are embedded as ordered association lists.  The code
   only ever reads and writes the "main" port of an edge group,
   and a missing "main" key behaves as the empty list, so an edge
   group is embedded as its list of branches.  A link is a dict
   from which the code reads only "node" (via .get, which may give
   null); the remaining payload ("type", "index") is carried along
   untouched.
   ============================================================ -/

structure Link where
  node : Option String
  type : Option String
  index : Option Int
deriving DecidableEq, Repr

structure EdgeGroup where
  main : List (List Link)
deriving DecidableEq, Repr

abbrev Conn := List (String × EdgeGroup)

/-- First-match association-list lookup: Python `d[k]` / `k in d`. -/
def alget {β : Type} : List (String × β) → String → Option β
  | [], _ => none
  | (k, v) :: r, key => if k = key then some v else alget r key

/-- Apply `f` to the value stored at `key` (Python in-place update of
an existing dict entry; dicts have unique keys). -/
def alupdate {β : Type} (l : List (String × β)) (key : String) (f : β → β) :
    List (String × β) :=
  l.map (fun p => if p.1 = key then (p.1, f p.2) else p)

/-- Python dict assignment `d[k] = v`: overwrite in place if the key is
present, else append at the end (insertion order). -/
def alset {β : Type} (l : List (String × β)) (key : String) (v : β) :
    List (String × β) :=
  if (l.map Prod.fst).contains key then alupdate l key (fun _ => v)
  else l ++ [(key, v)]

/-- A JSON object field as the Python code distinguishes it:
absent key, key explicitly null, or key with a value. -/
inductive JField (α : Type) where
  | missing
  | null
  | val (a : α)
deriving DecidableEq, Repr

/-- Python `d.setdefault(k, v)`: only an absent key receives the
default; an explicit null is left in place. -/
def JField.setdefault {α : Type} (f : JField α) (d : α) : JField α :=
  match f with
  | .missing => .val d
  | x => x

def JField.isVal {α : Type} : JField α → Bool
  | .val _ => true
  | _ => false

/-- A node's `parameters` dict.  The pipeline only ever stores string
values in the keys it touches ("responseFormat", "language", "jsCode",
"functionCode", "code"), so values are embedded as strings. -/
abbrev Params := List (String × String)

def Params.setdefault (p : Params) (key v : String) : Params :=
  if (p.map Prod.fst).contains key then p else p ++ [(key, v)]

/-- Python `del d[k]` (no-op here when the key is absent; the source
guards each del with a presence check). -/
def Params.erase (p : Params) (key : String) : Params :=
  p.filter (fun kv => !(kv.1 == key))

def Params.set (p : Params) (key v : String) : Params := alset p key v

structure Node where
  name : String
  type : String
  parameters : JField Params
  typeVersion : JField Int
  position : JField (Int × Int)
deriving DecidableEq, Repr

structure SettingsJ where
  timezone : Option String
  executionOrder : Option String
  saveManualExecutions : Option Bool
deriving DecidableEq, Repr

structure Workflow where
  name : Option String
  nodes : List Node
  id : Option String
  active : Bool
  tags : Option (List String)
  settings : Option SettingsJ
  connections : Conn
deriving DecidableEq, Repr

/-- Equality of `Except` results is decidable componentwise. -/
instance instDecEqExcept {ε α : Type} [DecidableEq ε] [DecidableEq α] :
    DecidableEq (Except ε α) := fun a b =>
  match a, b with
  | .ok x, .ok y =>
    if h : x = y then .isTrue (by rw [h])
    else .isFalse (by intro hc; cases hc; exact h rfl)
  | .error x, .error y =>
    if h : x = y then .isTrue (by rw [h])
    else .isFalse (by intro hc; cases hc; exact h rfl)
  | .ok _, .error _ => .isFalse (by intro hc; cases hc)
  | .error _, .ok _ => .isFalse (by intro hc; cases hc)

/-- Python exceptions the embedded pipeline can raise. -/
inductive PyErr where
  | valueError (msg : String)
  | attributeError
  | transportError
deriving DecidableEq, Repr

/- ============================================================
   Graph Sanitizer: `sanitize_connections` (ai_service.py:208-244).
   ============================================================ -/

def validNames (nodes : List Node) : List String := nodes.map Node.name

/-- `dst in valid_names and dst != src` on `link.get("node")`. -/
def keepLink (names : List String) (src : String) (l : Link) : Bool :=
  match l.node with
  | some d => names.contains d && d != src
  | none => false

/-- Pass 1 branch cleanup: filter links, then drop empty branches. -/
def cleanMain (names : List String) (src : String) (main : List (List Link)) :
    List (List Link) :=
  (main.map (fun b => b.filter (keepLink names src))).filter (fun b => !b.isEmpty)

/-- Pass 1: drop unknown sources, dangling targets, self-loops,
emptied branches and emptied source entries (ai_service.py:213-227). -/
def sanitizePass1 (c : Conn) (names : List String) : Conn :=
  c.foldl
    (fun out p =>
      if names.contains p.1 then
        let cm := cleanMain names p.1 p.2.main
        if cm.isEmpty then out else alset out p.1 ⟨cm⟩
      else out)
    []

/-- `[l2 for l2 in bb if l2.get("node") != src]` over every branch. -/
def removeLinksTo (s : String) (eg : EdgeGroup) : EdgeGroup :=
  ⟨eg.main.map (fun b => b.filter (fun l => l.node != some s))⟩

/-- `any(l2.get("node") == src for l2 in b2)` over any branch. -/
def linksBack (eg : EdgeGroup) (s : String) : Bool :=
  eg.main.any (fun b => b.any (fun l => l.node == some s))

/-- One link of the cycle-breaking scan (ai_service.py:232-242):
if the link's target exists as a source and links back to `src`,
replace that target's main port with branches filtered of `src`. -/
def processLink (src : String) (out : Conn) (l : Link) : Conn :=
  match l.node with
  | none => out
  | some dst =>
    match alget out dst with
    | none => out
    | some eg => if linksBack eg src then alupdate out dst (removeLinksTo src) else out

/-- Scan all links of one retained source, in branch order.  The list
of branches is the one read when the Python for-loop starts; only
other sources' entries are mutated while it runs. -/
def processSrc (out : Conn) (src : String) : Conn :=
  match alget out src with
  | none => out
  | some eg => eg.main.foldl (fun o b => b.foldl (processLink src) o) out

/-- Pass 2: `for src, edges in list(out.items())` (ai_service.py:230). -/
def breakCycles (out : Conn) : Conn :=
  (out.map Prod.fst).foldl processSrc out

/-- `sanitize_connections` (ai_service.py:208-244). -/
def sanitize_connections (connections : Conn) (nodes : List Node) : Conn :=
  breakCycles (sanitizePass1 connections (validNames nodes))

/-- Boolean edge test: the output/input holds a link `s → d`. -/
def edgeB (c : Conn) (s d : String) : Bool :=
  match alget c s with
  | none => false
  | some eg => linksBack eg d

/- ============================================================
   Association-list laws.
   ============================================================ -/

theorem alget_cons {β : Type} (pk : String) (pv : β) (r : List (String × β))
    (a : String) :
    alget ((pk, pv) :: r) a = if pk = a then some pv else alget r a := rfl

theorem alupdate_cons {β : Type} (pk : String) (pv : β) (r : List (String × β))
    (k : String) (f : β → β) :
    alupdate ((pk, pv) :: r) k f
      = (if pk = k then (pk, f pv) else (pk, pv)) :: alupdate r k f := rfl

theorem alget_alupdate {β : Type} (l : List (String × β)) (k : String) (f : β → β)
    (a : String) :
    alget (alupdate l k f) a = if a = k then (alget l a).map f else alget l a := by
  induction l with
  | nil => simp [alget, alupdate]
  | cons p r ih =>
    obtain ⟨pk, pv⟩ := p
    rw [alupdate_cons]
    by_cases hpk : pk = k
    · rw [if_pos hpk]
      by_cases hpa : pk = a
      · have hak : a = k := hpa.symm.trans hpk
        simp only [alget_cons, if_pos hpa, if_pos hak]
        rfl
      · simp only [alget_cons, if_neg hpa, ih]
    · rw [if_neg hpk]
      by_cases hpa : pk = a
      · have hak : ¬a = k := fun h => hpk (hpa.trans h)
        simp only [alget_cons, if_pos hpa, if_neg hak]
      · simp only [alget_cons, if_neg hpa, ih]

theorem alupdate_keys {β : Type} (l : List (String × β)) (k : String) (f : β → β) :
    (alupdate l k f).map Prod.fst = l.map Prod.fst := by
  induction l with
  | nil => rfl
  | cons p r ih =>
    obtain ⟨pk, pv⟩ := p
    by_cases h : pk = k <;> simp_all [alupdate]

theorem alget_eq_none_iff {β : Type} (l : List (String × β)) (a : String) :
    alget l a = none ↔ a ∉ l.map Prod.fst := by
  induction l with
  | nil => simp [alget]
  | cons p r ih =>
    by_cases h : p.1 = a
    · simp [alget, h]
    · simp [alget, h, ih, Ne.symm h]

theorem alget_isSome_of_mem_keys {β : Type} (l : List (String × β)) (a : String)
    (h : a ∈ l.map Prod.fst) : ∃ v, alget l a = some v := by
  rcases he : alget l a with _ | v
  · exact absurd h ((alget_eq_none_iff l a).mp he)
  · exact ⟨v, rfl⟩

theorem mem_keys_of_alget_eq_some {β : Type} (l : List (String × β)) (a : String)
    (v : β) (h : alget l a = some v) : a ∈ l.map Prod.fst := by
  by_contra hc
  rw [(alget_eq_none_iff l a).mpr hc] at h
  exact absurd h (by simp)

theorem alget_mem {β : Type} (l : List (String × β)) (a : String) (v : β)
    (h : alget l a = some v) : (a, v) ∈ l := by
  induction l with
  | nil => simp [alget] at h
  | cons p r ih =>
    obtain ⟨pk, pv⟩ := p
    rw [alget_cons] at h
    by_cases hp : pk = a
    · rw [if_pos hp] at h
      have hv := Option.some.inj h
      subst hv
      subst hp
      exact List.mem_cons_self _ _
    · rw [if_neg hp] at h
      exact List.mem_cons_of_mem _ (ih h)

theorem alget_of_nodup_mem {β : Type} (l : List (String × β)) (a : String) (v : β)
    (hnd : (l.map Prod.fst).Nodup) (hm : (a, v) ∈ l) : alget l a = some v := by
  induction l with
  | nil => simp at hm
  | cons p r ih =>
    simp only [List.map_cons, List.nodup_cons] at hnd
    rcases List.mem_cons.mp hm with h | h
    · subst h
      simp [alget]
    · have hne : p.1 ≠ a := by
        intro he
        exact hnd.1 (he ▸ (List.mem_map.mpr ⟨(a, v), h, rfl⟩))
      simp only [alget, if_neg hne]
      exact ih hnd.2 h

theorem alset_keys_nodup {β : Type} (l : List (String × β)) (k : String) (v : β)
    (h : (l.map Prod.fst).Nodup) : ((alset l k v).map Prod.fst).Nodup := by
  unfold alset
  by_cases hc : (l.map Prod.fst).contains k = true
  · rw [if_pos hc, alupdate_keys]
    exact h
  · rw [if_neg hc]
    have hk : k ∉ l.map Prod.fst := by
      intro hmem
      exact hc (by simpa using hmem)
    rw [List.map_append]
    simp only [List.map_cons, List.map_nil]
    rw [List.nodup_append]
    refine ⟨h, by simp, ?_⟩
    intro a ha hb
    simp only [List.mem_singleton] at hb
    subst hb
    exact hk ha

/-- Appending a fresh key: `alset` keeps the old entries unchanged. -/
theorem alset_of_not_mem {β : Type} (l : List (String × β)) (k : String) (v : β)
    (h : k ∉ l.map Prod.fst) : alset l k v = l ++ [(k, v)] := by
  unfold alset
  rw [if_neg]
  intro hc
  exact h (by simpa using hc)

/- ============================================================
   Equation lemmas for the pass-2 scan.
   ============================================================ -/

theorem processLink_eq_of_node_none (s : String) (o : Conn) (l : Link)
    (h : l.node = none) : processLink s o l = o := by
  unfold processLink
  rw [h]

theorem processLink_eq_of_no_entry (s : String) (o : Conn) (l : Link) (d : String)
    (h : l.node = some d) (h2 : alget o d = none) : processLink s o l = o := by
  unfold processLink
  rw [h]
  dsimp only
  rw [h2]

theorem processLink_eq_of_no_back (s : String) (o : Conn) (l : Link) (d : String)
    (eg : EdgeGroup) (h : l.node = some d) (h2 : alget o d = some eg)
    (h3 : linksBack eg s = false) : processLink s o l = o := by
  unfold processLink
  rw [h]
  dsimp only
  rw [h2]
  simp [h3]

theorem processLink_eq_of_back (s : String) (o : Conn) (l : Link) (d : String)
    (eg : EdgeGroup) (h : l.node = some d) (h2 : alget o d = some eg)
    (h3 : linksBack eg s = true) :
    processLink s o l = alupdate o d (removeLinksTo s) := by
  unfold processLink
  rw [h]
  dsimp only
  rw [h2]
  simp [h3]

/-- `processLink` is either a no-op or one in-place filter of the entry
named by the link target. -/
theorem processLink_cases (s : String) (o : Conn) (l : Link) :
    processLink s o l = o ∨
      ∃ d, l.node = some d ∧ processLink s o l = alupdate o d (removeLinksTo s) := by
  rcases hn : l.node with _ | d
  · exact Or.inl (processLink_eq_of_node_none s o l hn)
  · rcases hg : alget o d with _ | eg
    · exact Or.inl (processLink_eq_of_no_entry s o l d hn hg)
    · rcases hb : linksBack eg s with _ | _
      · exact Or.inl (processLink_eq_of_no_back s o l d eg hn hg hb)
      · exact Or.inr ⟨d, rfl, processLink_eq_of_back s o l d eg hn hg hb⟩

theorem processSrc_eq_of_no_entry (o : Conn) (s : String)
    (h : alget o s = none) : processSrc o s = o := by
  unfold processSrc
  rw [h]

theorem processSrc_eq_fold (o : Conn) (s : String) (eg : EdgeGroup)
    (h : alget o s = some eg) :
    processSrc o s = eg.main.foldl (fun o b => b.foldl (processLink s) o) o := by
  unfold processSrc
  rw [h]

/- ============================================================
   Sanitizer pass 2 never adds or removes entries: key lists are
   preserved exactly.
   ============================================================ -/

theorem processLink_keys (s : String) (o : Conn) (l : Link) :
    (processLink s o l).map Prod.fst = o.map Prod.fst := by
  rcases processLink_cases s o l with h | ⟨d, _, h⟩
  · rw [h]
  · rw [h, alupdate_keys]

theorem foldl_processLink_keys (s : String) (b : List Link) (o : Conn) :
    (b.foldl (processLink s) o).map Prod.fst = o.map Prod.fst := by
  induction b generalizing o with
  | nil => rfl
  | cons l r ih => rw [List.foldl_cons, ih, processLink_keys]

theorem foldl_branches_keys (s : String) (bs : List (List Link)) (o : Conn) :
    ((bs.foldl (fun o b => b.foldl (processLink s) o) o).map Prod.fst)
      = o.map Prod.fst := by
  induction bs generalizing o with
  | nil => rfl
  | cons b r ih => rw [List.foldl_cons, ih, foldl_processLink_keys]

theorem processSrc_keys (o : Conn) (s : String) :
    (processSrc o s).map Prod.fst = o.map Prod.fst := by
  rcases hg : alget o s with _ | eg
  · rw [processSrc_eq_of_no_entry o s hg]
  · rw [processSrc_eq_fold o s eg hg, foldl_branches_keys]

theorem foldl_processSrc_keys (ks : List String) (o : Conn) :
    (ks.foldl processSrc o).map Prod.fst = o.map Prod.fst := by
  induction ks generalizing o with
  | nil => rfl
  | cons k r ih => rw [List.foldl_cons, ih, processSrc_keys]

theorem breakCycles_keys (o : Conn) :
    (breakCycles o).map Prod.fst = o.map Prod.fst :=
  foldl_processSrc_keys _ o

/- ============================================================
   Pass 1 output has unique keys (it is built as a Python dict).
   ============================================================ -/

theorem sanitizePass1_keys_nodup (c : Conn) (names : List String) :
    ((sanitizePass1 c names).map Prod.fst).Nodup := by
  unfold sanitizePass1
  suffices h : ∀ acc : Conn, (acc.map Prod.fst).Nodup →
      ((c.foldl
        (fun out p =>
          if names.contains p.1 then
            let cm := cleanMain names p.1 p.2.main
            if cm.isEmpty then out else alset out p.1 ⟨cm⟩
          else out) acc).map Prod.fst).Nodup by
    exact h [] (by simp)
  induction c with
  | nil => intro acc hacc; exact hacc
  | cons p r ih =>
    intro acc hacc
    rw [List.foldl_cons]
    apply ih
    dsimp only
    split
    · split
      · exact hacc
      · exact alset_keys_nodup acc p.1 _ hacc
    · exact hacc

theorem sanitize_keys_nodup (c : Conn) (nodes : List Node) :
    ((sanitize_connections c nodes).map Prod.fst).Nodup := by
  unfold sanitize_connections
  rw [breakCycles_keys]
  exact sanitizePass1_keys_nodup c (validNames nodes)

/- ============================================================
   C1 invariant: every retained link has a valid source, a valid
   target, and is not a self-loop.
   ============================================================ -/

def ConnValid (names : List String) (c : Conn) : Prop :=
  ∀ p ∈ c, p.1 ∈ names ∧
    ∀ b ∈ p.2.main, ∀ l ∈ b, ∃ d, l.node = some d ∧ d ∈ names ∧ d ≠ p.1

theorem cleanMain_links (names : List String) (src : String)
    (main : List (List Link)) :
    ∀ b ∈ cleanMain names src main, ∀ l ∈ b, keepLink names src l = true := by
  intro b hb l hl
  unfold cleanMain at hb
  rcases List.mem_filter.mp hb with ⟨hb2, _⟩
  rcases List.mem_map.mp hb2 with ⟨b0, _, rfl⟩
  exact (List.mem_filter.mp hl).2

theorem keepLink_spec (names : List String) (src : String) (l : Link)
    (h : keepLink names src l = true) :
    ∃ d, l.node = some d ∧ d ∈ names ∧ d ≠ src := by
  unfold keepLink at h
  rcases hn : l.node with _ | d
  · rw [hn] at h; exact absurd h (by simp)
  · rw [hn] at h
    have h12 : names.contains d = true ∧ (d != src) = true := by simpa using h
    exact ⟨d, rfl, by simpa using h12.1, by simpa using h12.2⟩

theorem ConnValid_alset (names : List String) (acc : Conn) (k : String)
    (eg : EdgeGroup) (hacc : ConnValid names acc) (hk : k ∈ names)
    (heg : ∀ b ∈ eg.main, ∀ l ∈ b, ∃ d, l.node = some d ∧ d ∈ names ∧ d ≠ k) :
    ConnValid names (alset acc k eg) := by
  intro p hp
  unfold alset at hp
  by_cases hc : (acc.map Prod.fst).contains k = true
  · rw [if_pos hc] at hp
    unfold alupdate at hp
    rcases List.mem_map.mp hp with ⟨q, hq, hpq⟩
    by_cases hqk : q.1 = k
    · rw [if_pos hqk] at hpq
      subst hpq
      exact ⟨by simpa [hqk] using hk, by simpa [hqk] using heg⟩
    · rw [if_neg hqk] at hpq
      subst hpq
      exact hacc q hq
  · rw [if_neg hc] at hp
    rcases List.mem_append.mp hp with h | h
    · exact hacc p h
    · rcases List.mem_singleton.mp h with rfl
      exact ⟨hk, heg⟩

theorem sanitizePass1_valid (c : Conn) (names : List String) :
    ConnValid names (sanitizePass1 c names) := by
  unfold sanitizePass1
  suffices h : ∀ acc : Conn, ConnValid names acc →
      ConnValid names (c.foldl
        (fun out p =>
          if names.contains p.1 then
            let cm := cleanMain names p.1 p.2.main
            if cm.isEmpty then out else alset out p.1 ⟨cm⟩
          else out) acc) by
    exact h [] (by intro p hp; simp at hp)
  induction c with
  | nil => intro acc hacc; exact hacc
  | cons p r ih =>
    intro acc hacc
    rw [List.foldl_cons]
    apply ih
    dsimp only
    split
    · split
      · exact hacc
      · next h1 _ =>
          apply ConnValid_alset names acc p.1 _ hacc (by simpa using h1)
          intro b hb l hl
          exact keepLink_spec names p.1 l (cleanMain_links names p.1 p.2.main b hb l hl)
    · exact hacc

theorem ConnValid_alupdate_remove (names : List String) (c : Conn) (k s : String)
    (hc : ConnValid names c) : ConnValid names (alupdate c k (removeLinksTo s)) := by
  intro p hp
  unfold alupdate at hp
  rcases List.mem_map.mp hp with ⟨q, hq, hpq⟩
  by_cases hqk : q.1 = k
  · rw [if_pos hqk] at hpq
    subst hpq
    rcases hc q hq with ⟨hq1, hq2⟩
    refine ⟨hq1, ?_⟩
    intro b hb l hl
    unfold removeLinksTo at hb
    simp only at hb
    rcases List.mem_map.mp hb with ⟨b0, hb0, rfl⟩
    exact hq2 b0 hb0 l (List.mem_of_mem_filter hl)
  · rw [if_neg hqk] at hpq
    subst hpq
    exact hc q hq

theorem ConnValid_processLink (names : List String) (s : String) (o : Conn)
    (l : Link) (ho : ConnValid names o) : ConnValid names (processLink s o l) := by
  rcases processLink_cases s o l with h | ⟨d, _, h⟩
  · rw [h]; exact ho
  · rw [h]; exact ConnValid_alupdate_remove names o d s ho

theorem ConnValid_foldl_processLink (names : List String) (s : String)
    (b : List Link) (o : Conn) (ho : ConnValid names o) :
    ConnValid names (b.foldl (processLink s) o) := by
  induction b generalizing o with
  | nil => exact ho
  | cons l r ih =>
    rw [List.foldl_cons]
    exact ih _ (ConnValid_processLink names s o l ho)

theorem ConnValid_foldl_branches (names : List String) (s : String)
    (bs : List (List Link)) (o : Conn) (ho : ConnValid names o) :
    ConnValid names (bs.foldl (fun o b => b.foldl (processLink s) o) o) := by
  induction bs generalizing o with
  | nil => exact ho
  | cons b r ih =>
    rw [List.foldl_cons]
    exact ih _ (ConnValid_foldl_processLink names s b o ho)

theorem ConnValid_processSrc (names : List String) (o : Conn) (s : String)
    (ho : ConnValid names o) : ConnValid names (processSrc o s) := by
  rcases hg : alget o s with _ | eg
  · rw [processSrc_eq_of_no_entry o s hg]; exact ho
  · rw [processSrc_eq_fold o s eg hg]
    exact ConnValid_foldl_branches names s eg.main o ho

theorem ConnValid_breakCycles (names : List String) (o : Conn)
    (ho : ConnValid names o) : ConnValid names (breakCycles o) := by
  unfold breakCycles
  generalize o.map Prod.fst = ks
  induction ks generalizing o with
  | nil => exact ho
  | cons k r ih =>
    rw [List.foldl_cons]
    exact ih _ (ConnValid_processSrc names o k ho)

theorem sanitize_valid (c : Conn) (nodes : List Node) :
    ConnValid (validNames nodes) (sanitize_connections c nodes) :=
  ConnValid_breakCycles _ _ (sanitizePass1_valid c (validNames nodes))

/- ============================================================
   Edge-level behaviour of the cycle-breaking pass.
   ============================================================ -/

theorem removeLinksTo_main (s : String) (eg : EdgeGroup) :
    (removeLinksTo s eg).main
      = eg.main.map (fun b => b.filter (fun l => l.node != some s)) := rfl

theorem linksBack_removeLinksTo_self (s : String) (eg : EdgeGroup) :
    linksBack (removeLinksTo s eg) s = false := by
  rcases hb : linksBack (removeLinksTo s eg) s with _ | _
  · rfl
  · exfalso
    unfold linksBack at hb
    rw [removeLinksTo_main] at hb
    simp only [List.any_eq_true] at hb
    rcases hb with ⟨b, hbm, l, hl, hld⟩
    rcases List.mem_map.mp hbm with ⟨b0, _, rfl⟩
    have h2 := (List.mem_filter.mp hl).2
    have h3 : l.node = some s := by simpa using hld
    simp [h3] at h2

theorem linksBack_removeLinksTo_mono (s d : String) (eg : EdgeGroup)
    (h : linksBack (removeLinksTo s eg) d = true) : linksBack eg d = true := by
  unfold linksBack at h ⊢
  rw [removeLinksTo_main] at h
  simp only [List.any_eq_true] at h ⊢
  rcases h with ⟨b, hb, l, hl, hld⟩
  rcases List.mem_map.mp hb with ⟨b0, hb0, rfl⟩
  exact ⟨b0, hb0, l, List.mem_of_mem_filter hl, hld⟩

theorem linksBack_removeLinksTo_of_ne (s d : String) (eg : EdgeGroup)
    (hne : d ≠ s) (h : linksBack eg d = true) :
    linksBack (removeLinksTo s eg) d = true := by
  unfold linksBack at h ⊢
  rw [removeLinksTo_main]
  simp only [List.any_eq_true] at h ⊢
  rcases h with ⟨b, hb, l, hl, hld⟩
  refine ⟨b.filter (fun l => l.node != some s), List.mem_map.mpr ⟨b, hb, rfl⟩, l, ?_, hld⟩
  apply List.mem_filter.mpr
  refine ⟨hl, ?_⟩
  have hnode : l.node = some d := by simpa using hld
  simp [hnode, hne]

theorem edgeB_of_entry (c : Conn) (s d : String) (eg : EdgeGroup)
    (h : alget c s = some eg) : edgeB c s d = linksBack eg d := by
  unfold edgeB
  rw [h]

theorem edgeB_of_no_entry (c : Conn) (s d : String)
    (h : alget c s = none) : edgeB c s d = false := by
  unfold edgeB
  rw [h]

theorem edgeB_alupdate_remove_mono (o : Conn) (k s x y : String)
    (h : edgeB (alupdate o k (removeLinksTo s)) x y = true) : edgeB o x y = true := by
  rcases hg : alget o x with _ | eg
  · have : alget (alupdate o k (removeLinksTo s)) x = none := by
      rw [alget_alupdate, hg]
      split <;> rfl
    rw [edgeB_of_no_entry _ _ _ this] at h
    exact absurd h (by simp)
  · rw [edgeB_of_entry o x y eg hg]
    by_cases hxk : x = k
    · have hupd : alget (alupdate o k (removeLinksTo s)) x = some (removeLinksTo s eg) := by
        rw [alget_alupdate, if_pos hxk, hg]
        rfl
      rw [edgeB_of_entry _ _ _ _ hupd] at h
      exact linksBack_removeLinksTo_mono s y eg h
    · have hupd : alget (alupdate o k (removeLinksTo s)) x = some eg := by
        rw [alget_alupdate, if_neg hxk, hg]
      rw [edgeB_of_entry _ _ _ _ hupd] at h
      exact h

theorem edgeB_processLink_mono (s : String) (o : Conn) (l : Link) (x y : String)
    (h : edgeB (processLink s o l) x y = true) : edgeB o x y = true := by
  rcases processLink_cases s o l with he | ⟨d, _, he⟩
  · rwa [he] at h
  · rw [he] at h
    exact edgeB_alupdate_remove_mono o d s x y h

theorem edgeB_foldl_links_mono (s : String) (links : List Link) (o : Conn)
    (x y : String) (h : edgeB (links.foldl (processLink s) o) x y = true) :
    edgeB o x y = true := by
  induction links generalizing o with
  | nil => exact h
  | cons l r ih =>
    rw [List.foldl_cons] at h
    exact edgeB_processLink_mono s o l x y (ih _ h)

theorem edgeB_foldl_branches_mono (s : String) (bs : List (List Link)) (o : Conn)
    (x y : String)
    (h : edgeB (bs.foldl (fun o b => b.foldl (processLink s) o) o) x y = true) :
    edgeB o x y = true := by
  induction bs generalizing o with
  | nil => exact h
  | cons b r ih =>
    rw [List.foldl_cons] at h
    exact edgeB_foldl_links_mono s b o x y (ih _ h)

theorem edgeB_processSrc_mono (o : Conn) (s x y : String)
    (h : edgeB (processSrc o s) x y = true) : edgeB o x y = true := by
  rcases hg : alget o s with _ | eg
  · rwa [processSrc_eq_of_no_entry o s hg] at h
  · rw [processSrc_eq_fold o s eg hg] at h
    exact edgeB_foldl_branches_mono s eg.main o x y h

theorem edgeB_foldl_keys_mono (ks : List String) (o : Conn) (x y : String)
    (h : edgeB (ks.foldl processSrc o) x y = true) : edgeB o x y = true := by
  induction ks generalizing o with
  | nil => exact h
  | cons k r ih =>
    rw [List.foldl_cons] at h
    exact edgeB_processSrc_mono o k x y (ih _ h)

/- Preservation: only links pointing at the currently scanned source
are ever removed. -/

theorem edgeB_processLink_preserve (s : String) (o : Conn) (l : Link)
    (x y : String) (hy : y ≠ s) (h : edgeB o x y = true) :
    edgeB (processLink s o l) x y = true := by
  rcases processLink_cases s o l with he | ⟨d, _, he⟩
  · rwa [he]
  · rw [he]
    rcases hg : alget o x with _ | eg
    · rw [edgeB_of_no_entry o x y hg] at h
      exact absurd h (by simp)
    · rw [edgeB_of_entry o x y eg hg] at h
      by_cases hxd : x = d
      · have hupd : alget (alupdate o d (removeLinksTo s)) x = some (removeLinksTo s eg) := by
          rw [alget_alupdate, if_pos hxd, hg]
          rfl
        rw [edgeB_of_entry _ _ _ _ hupd]
        exact linksBack_removeLinksTo_of_ne s y eg hy h
      · have hupd : alget (alupdate o d (removeLinksTo s)) x = some eg := by
          rw [alget_alupdate, if_neg hxd, hg]
        rw [edgeB_of_entry _ _ _ _ hupd]
        exact h

theorem edgeB_foldl_links_preserve (s : String) (links : List Link) (o : Conn)
    (x y : String) (hy : y ≠ s) (h : edgeB o x y = true) :
    edgeB (links.foldl (processLink s) o) x y = true := by
  induction links generalizing o with
  | nil => exact h
  | cons l r ih =>
    rw [List.foldl_cons]
    exact ih _ (edgeB_processLink_preserve s o l x y hy h)

theorem edgeB_foldl_branches_preserve (s : String) (bs : List (List Link))
    (o : Conn) (x y : String) (hy : y ≠ s) (h : edgeB o x y = true) :
    edgeB (bs.foldl (fun o b => b.foldl (processLink s) o) o) x y = true := by
  induction bs generalizing o with
  | nil => exact h
  | cons b r ih =>
    rw [List.foldl_cons]
    exact ih _ (edgeB_foldl_links_preserve s b o x y hy h)

theorem edgeB_processSrc_preserve (o : Conn) (s x y : String) (hy : y ≠ s)
    (h : edgeB o x y = true) : edgeB (processSrc o s) x y = true := by
  rcases hg : alget o s with _ | eg
  · rwa [processSrc_eq_of_no_entry o s hg]
  · rw [processSrc_eq_fold o s eg hg]
    exact edgeB_foldl_branches_preserve s eg.main o x y hy h

/- The kill lemma: after the scan of source `s`, no target that `s`
links to still links back to `s`. -/

theorem edgeB_processLink_kill (s : String) (o : Conn) (l : Link) (d : String)
    (h : l.node = some d) : edgeB (processLink s o l) d s = false := by
  rcases hg : alget o d with _ | eg
  · rw [processLink_eq_of_no_entry s o l d h hg]
    exact edgeB_of_no_entry o d s hg
  · rcases hb : linksBack eg s with _ | _
    · rw [processLink_eq_of_no_back s o l d eg h hg hb]
      rw [edgeB_of_entry o d s eg hg]
      exact hb
    · rw [processLink_eq_of_back s o l d eg h hg hb]
      have hupd : alget (alupdate o d (removeLinksTo s)) d = some (removeLinksTo s eg) := by
        rw [alget_alupdate, if_pos rfl, hg]
        rfl
      rw [edgeB_of_entry _ _ _ _ hupd]
      exact linksBack_removeLinksTo_self s eg

theorem edgeB_processLink_false_preserve (s : String) (o : Conn) (l : Link)
    (x y : String) (h : edgeB o x y = false) :
    edgeB (processLink s o l) x y = false := by
  rcases he : edgeB (processLink s o l) x y with _ | _
  · rfl
  · rw [edgeB_processLink_mono s o l x y he] at h
    exact h

theorem edgeB_foldl_links_kill (s : String) (links : List Link) (o : Conn)
    (d : String)
    (h : (∃ l ∈ links, l.node = some d) ∨ edgeB o d s = false) :
    edgeB (links.foldl (processLink s) o) d s = false := by
  induction links generalizing o with
  | nil =>
    rcases h with ⟨l, hl, _⟩ | h
    · exact absurd hl (by simp)
    · exact h
  | cons l r ih =>
    rw [List.foldl_cons]
    rcases h with ⟨l0, hl0, hnode⟩ | h
    · rcases List.mem_cons.mp hl0 with rfl | hl0r
      · exact ih _ (Or.inr (edgeB_processLink_kill s o l0 d hnode))
      · exact ih _ (Or.inl ⟨l0, hl0r, hnode⟩)
    · exact ih _ (Or.inr (edgeB_processLink_false_preserve s o l d s h))

theorem edgeB_foldl_branches_kill (s : String) (bs : List (List Link)) (o : Conn)
    (d : String)
    (h : (∃ b ∈ bs, ∃ l ∈ b, l.node = some d) ∨ edgeB o d s = false) :
    edgeB (bs.foldl (fun o b => b.foldl (processLink s) o) o) d s = false := by
  induction bs generalizing o with
  | nil =>
    rcases h with ⟨b, hb, _⟩ | h
    · exact absurd hb (by simp)
    · exact h
  | cons b r ih =>
    rw [List.foldl_cons]
    rcases h with ⟨b0, hb0, l0, hl0, hnode⟩ | h
    · rcases List.mem_cons.mp hb0 with rfl | hb0r
      · exact ih _ (Or.inr (edgeB_foldl_links_kill s b0 o d (Or.inl ⟨l0, hl0, hnode⟩)))
      · exact ih _ (Or.inl ⟨b0, hb0r, l0, hl0, hnode⟩)
    · refine ih _ (Or.inr ?_)
      rcases he : edgeB (b.foldl (processLink s) o) d s with _ | _
      · rfl
      · rw [edgeB_foldl_links_mono s b o d s he] at h
        exact h

theorem processSrc_kill (o : Conn) (s d : String) (eg : EdgeGroup)
    (hg : alget o s = some eg) (hd : linksBack eg d = true) :
    edgeB (processSrc o s) d s = false := by
  rw [processSrc_eq_fold o s eg hg]
  apply edgeB_foldl_branches_kill
  left
  unfold linksBack at hd
  simp only [List.any_eq_true] at hd
  rcases hd with ⟨b, hb, l, hl, hld⟩
  exact ⟨b, hb, l, hl, by simpa using hld⟩

/- No-mutual-pair property and its preservation. -/

def NoMutualAt (c : Conn) (s : String) : Prop :=
  ∀ d, edgeB c s d = true → edgeB c d s = false

theorem NoMutualAt_processSrc_self (o : Conn) (s : String) :
    NoMutualAt (processSrc o s) s := by
  intro d hd
  rcases hg : alget o s with _ | eg
  · rw [processSrc_eq_of_no_entry o s hg] at hd ⊢
    rw [edgeB_of_no_entry o s d hg] at hd
    exact absurd hd (by simp)
  · have hsd : edgeB o s d = true := edgeB_processSrc_mono o s s d hd
    rw [edgeB_of_entry o s d eg hg] at hsd
    exact processSrc_kill o s d eg hg hsd

theorem NoMutualAt_step (c c' : Conn) (s : String)
    (hmono : ∀ x y, edgeB c' x y = true → edgeB c x y = true)
    (h : NoMutualAt c s) : NoMutualAt c' s := by
  intro d hd
  have h1 : edgeB c s d = true := hmono s d hd
  have h2 : edgeB c d s = false := h d h1
  rcases he : edgeB c' d s with _ | _
  · rfl
  · rw [hmono d s he] at h2
    exact h2

theorem NoMutualAt_foldl_processSrc (ks : List String) (c : Conn) (s : String)
    (h : NoMutualAt c s) : NoMutualAt (ks.foldl processSrc c) s := by
  induction ks generalizing c with
  | nil => exact h
  | cons k r ih =>
    rw [List.foldl_cons]
    exact ih _ (NoMutualAt_step c (processSrc c k) s
      (fun x y => edgeB_processSrc_mono c k x y) h)

theorem foldl_processSrc_no_mutual (ks : List String) (o : Conn) :
    ∀ s ∈ ks, NoMutualAt (ks.foldl processSrc o) s := by
  induction ks generalizing o with
  | nil => intro s hs; exact absurd hs (by simp)
  | cons k r ih =>
    intro s hs
    rw [List.foldl_cons]
    rcases List.mem_cons.mp hs with rfl | hsr
    · exact NoMutualAt_foldl_processSrc r (processSrc o s) s
        (NoMutualAt_processSrc_self o s)
    · exact ih (processSrc o k) s hsr

/-- After `sanitize_connections`, no mutual two-node cycle remains. -/
theorem sanitize_no_mutual (c : Conn) (nodes : List Node) (a b : String)
    (h : edgeB (sanitize_connections c nodes) a b = true) :
    edgeB (sanitize_connections c nodes) b a = false := by
  unfold sanitize_connections breakCycles at h ⊢
  set o := sanitizePass1 c (validNames nodes) with ho
  have ha : a ∈ (o.map Prod.fst) := by
    rcases hg : alget ((o.map Prod.fst).foldl processSrc o) a with _ | eg
    · rw [edgeB_of_no_entry _ _ _ hg] at h
      exact absurd h (by simp)
    · have := mem_keys_of_alget_eq_some _ _ _ hg
      rwa [foldl_processSrc_keys] at this
  exact foldl_processSrc_no_mutual (o.map Prod.fst) o a ha b h

/- ============================================================
   Pass 1 as a filterMap (valid when the input has unique keys,
   which Python dicts guarantee).
   ============================================================ -/

def pass1Entry (names : List String) (p : String × EdgeGroup) :
    Option (String × EdgeGroup) :=
  if names.contains p.1 then
    if (cleanMain names p.1 p.2.main).isEmpty then none
    else some (p.1, ⟨cleanMain names p.1 p.2.main⟩)
  else none

theorem pass1Entry_key (names : List String) (p q : String × EdgeGroup)
    (h : pass1Entry names p = some q) : q.1 = p.1 := by
  unfold pass1Entry at h
  split at h
  · split at h
    · exact absurd h (by simp)
    · cases h
      rfl
  · exact absurd h (by simp)

theorem sanitizePass1_eq_filterMap (c : Conn) (names : List String)
    (hnd : (c.map Prod.fst).Nodup) :
    sanitizePass1 c names = c.filterMap (pass1Entry names) := by
  unfold sanitizePass1
  suffices h : ∀ acc : Conn, (∀ k ∈ c.map Prod.fst, k ∉ acc.map Prod.fst) →
      (c.map Prod.fst).Nodup →
      (c.foldl
        (fun out p =>
          if names.contains p.1 then
            let cm := cleanMain names p.1 p.2.main
            if cm.isEmpty then out else alset out p.1 ⟨cm⟩
          else out) acc) = acc ++ c.filterMap (pass1Entry names) by
    simpa using h [] (by simp) hnd
  clear hnd
  induction c with
  | nil =>
    intro acc _ _
    simp
  | cons p r ih =>
    intro acc hdis hnd
    rw [List.foldl_cons, List.filterMap_cons]
    have hp_not : p.1 ∉ acc.map Prod.fst := hdis p.1 (by simp)
    have hnd_r : (r.map Prod.fst).Nodup := by
      simp only [List.map_cons, List.nodup_cons] at hnd
      exact hnd.2
    have hp_not_r : p.1 ∉ r.map Prod.fst := by
      simp only [List.map_cons, List.nodup_cons] at hnd
      exact hnd.1
    rcases he : pass1Entry names p with _ | q
    · have hstep : (if names.contains p.1 then
          let cm := cleanMain names p.1 p.2.main
          if cm.isEmpty then acc else alset acc p.1 ⟨cm⟩
        else acc) = acc := by
        unfold pass1Entry at he
        split at he
        · split at he
          · next h1 h2 =>
              rw [if_pos h1]
              dsimp only
              rw [if_pos h2]
          · exact absurd he (by simp)
        · next h1 => rw [if_neg h1]
      rw [hstep]
      exact ih acc (fun k hk => hdis k (by simp [hk])) hnd_r
    · have hq : q = (p.1, ⟨cleanMain names p.1 p.2.main⟩) ∧
          names.contains p.1 = true ∧
          (cleanMain names p.1 p.2.main).isEmpty = false := by
        unfold pass1Entry at he
        split at he
        · split at he
          · exact absurd he (by simp)
          · next h1 h2 =>
              cases he
              exact ⟨rfl, h1, by simpa using h2⟩
        · exact absurd he (by simp)
      have hstep : (if names.contains p.1 then
          let cm := cleanMain names p.1 p.2.main
          if cm.isEmpty then acc else alset acc p.1 ⟨cm⟩
        else acc) = acc ++ [q] := by
        rw [hq.1, if_pos hq.2.1]
        dsimp only
        rw [if_neg (by simp [hq.2.2])]
        exact alset_of_not_mem acc p.1 _ hp_not
      rw [hstep]
      have := ih (acc ++ [q]) ?_ hnd_r
      · rw [this, List.append_assoc]
        rfl
      · intro k hk
        simp only [List.map_append, List.mem_append]
        intro hcon
        rcases hcon with hc1 | hc2
        · exact hdis k (by simp [hk]) hc1
        · have hkq : k = q.1 := by simpa using hc2
          have hkp : k = p.1 := by
            rw [hq.1] at hkq
            simpa using hkq
          exact hp_not_r (hkp ▸ hk)

/- ============================================================
   Decomposition helpers for ordered occurrences.
   ============================================================ -/

theorem sublist_single_decomp {β : Type} (y : String) (l : List (String × β))
    (h : [y].Sublist (l.map Prod.fst)) :
    ∃ l1 q l2, l = l1 ++ q :: l2 ∧ q.1 = y := by
  induction l with
  | nil => simp at h
  | cons a r ih =>
    rw [List.map_cons] at h
    cases h with
    | cons _ h2 =>
      rcases ih h2 with ⟨l1, q, l2, rfl, hq⟩
      exact ⟨a :: l1, q, l2, rfl, hq⟩
    | cons₂ _ h2 =>
      exact ⟨[], a, r, rfl, rfl⟩

theorem sublist_pair_decomp {β : Type} (x y : String) (l : List (String × β))
    (h : [x, y].Sublist (l.map Prod.fst)) :
    ∃ l1 p l2 q l3, l = l1 ++ p :: l2 ++ q :: l3 ∧ p.1 = x ∧ q.1 = y := by
  induction l with
  | nil => simp at h
  | cons a r ih =>
    rw [List.map_cons] at h
    cases h with
    | cons _ h2 =>
      rcases ih h2 with ⟨l1, p, l2, q, l3, rfl, hp, hq⟩
      exact ⟨a :: l1, p, l2, q, l3, rfl, hp, hq⟩
    | cons₂ _ h2 =>
      rcases sublist_single_decomp y r h2 with ⟨l2, q, l3, rfl, hq⟩
      exact ⟨[], a, l2, q, l3, rfl, rfl, hq⟩

/- ============================================================
   Retention through pass 1.
   ============================================================ -/

theorem linksBack_cleanMain (names : List String) (src d : String)
    (main : List (List Link)) (hd : d ∈ names) (hds : d ≠ src)
    (h : linksBack ⟨main⟩ d = true) :
    linksBack ⟨cleanMain names src main⟩ d = true := by
  unfold linksBack at h ⊢
  simp only [List.any_eq_true] at h ⊢
  rcases h with ⟨b, hb, l, hl, hld⟩
  have hnode : l.node = some d := by simpa using hld
  have hkeep : keepLink names src l = true := by
    unfold keepLink
    rw [hnode]
    simp [hd, hds]
  refine ⟨b.filter (keepLink names src), ?_, l, List.mem_filter.mpr ⟨hl, hkeep⟩, hld⟩
  unfold cleanMain
  apply List.mem_filter.mpr
  refine ⟨List.mem_map.mpr ⟨b, hb, rfl⟩, ?_⟩
  have hmem : l ∈ b.filter (keepLink names src) := List.mem_filter.mpr ⟨hl, hkeep⟩
  rcases hfil : b.filter (keepLink names src) with _ | ⟨x, xs⟩
  · rw [hfil] at hmem
    exact absurd hmem (by simp)
  · simp [hfil]

theorem linksBack_nonempty (eg : EdgeGroup) (d : String)
    (h : linksBack eg d = true) : eg.main.isEmpty = false := by
  unfold linksBack at h
  simp only [List.any_eq_true] at h
  rcases h with ⟨b, hb, _⟩
  rcases hmain : eg.main with _ | _
  · rw [hmain] at hb
    exact absurd hb (by simp)
  · rfl

/- ============================================================
   Additional preservation lemmas for the staged fold argument.
   ============================================================ -/

theorem edgeB_alupdate_other (o : Conn) (k x y : String) (f : EdgeGroup → EdgeGroup)
    (hx : x ≠ k) : edgeB (alupdate o k f) x y = edgeB o x y := by
  unfold edgeB
  rw [alget_alupdate, if_neg hx]

theorem edgeB_foldl_links_avoid (s x y : String) (links : List Link) (o : Conn)
    (hav : ∀ l ∈ links, l.node ≠ some x) (h : edgeB o x y = true) :
    edgeB (links.foldl (processLink s) o) x y = true := by
  induction links generalizing o with
  | nil => exact h
  | cons l r ih =>
    rw [List.foldl_cons]
    apply ih _ (fun l2 hl2 => hav l2 (List.mem_cons_of_mem _ hl2))
    rcases processLink_cases s o l with he | ⟨d, hd, he⟩
    · rwa [he]
    · rw [he]
      have hxd : x ≠ d := by
        intro hcon
        exact hav l (by simp) (by rw [hd, hcon])
      rw [edgeB_alupdate_other o d x y _ hxd]
      exact h

theorem edgeB_foldl_branches_avoid (s x y : String) (bs : List (List Link))
    (o : Conn) (hav : ∀ b ∈ bs, ∀ l ∈ b, l.node ≠ some x)
    (h : edgeB o x y = true) :
    edgeB (bs.foldl (fun o b => b.foldl (processLink s) o) o) x y = true := by
  induction bs generalizing o with
  | nil => exact h
  | cons b r ih =>
    rw [List.foldl_cons]
    apply ih _ (fun b2 hb2 => hav b2 (List.mem_cons_of_mem _ hb2))
    exact edgeB_foldl_links_avoid s x y b o (hav b (by simp)) h

/-- If the scanned source does not link to `x`, the scan of that source
cannot remove an edge `x -> s`. -/
theorem processSrc_preserve_no_back (o : Conn) (s x : String)
    (hno : edgeB o s x = false) (h : edgeB o x s = true) :
    edgeB (processSrc o s) x s = true := by
  rcases hg : alget o s with _ | eg
  · rwa [processSrc_eq_of_no_entry o s hg]
  · rw [processSrc_eq_fold o s eg hg]
    apply edgeB_foldl_branches_avoid s x s eg.main o ?_ h
    intro b hb l hl hcon
    have hlb : linksBack eg x = true := by
      unfold linksBack
      simp only [List.any_eq_true]
      exact ⟨b, hb, l, hl, by simp [hcon]⟩
    rw [edgeB_of_entry o s x eg hg, hlb] at hno
    exact absurd hno (by simp)

theorem edgeB_processSrc_false_preserve (o : Conn) (s x y : String)
    (h : edgeB o x y = false) : edgeB (processSrc o s) x y = false := by
  rcases he : edgeB (processSrc o s) x y with _ | _
  · rfl
  · rw [edgeB_processSrc_mono o s x y he] at h
    exact h

theorem edgeB_foldl_keys_false_preserve (ks : List String) (o : Conn)
    (x y : String) (h : edgeB o x y = false) :
    edgeB (ks.foldl processSrc o) x y = false := by
  rcases he : edgeB (ks.foldl processSrc o) x y with _ | _
  · rfl
  · rw [edgeB_foldl_keys_mono ks o x y he] at h
    exact h

theorem edgeB_foldl_keys_preserve (ks : List String) (o : Conn) (x y : String)
    (hav : ∀ s ∈ ks, y ≠ s) (h : edgeB o x y = true) :
    edgeB (ks.foldl processSrc o) x y = true := by
  induction ks generalizing o with
  | nil => exact h
  | cons k r ih =>
    rw [List.foldl_cons]
    apply ih _ (fun s hs => hav s (List.mem_cons_of_mem _ hs))
    exact edgeB_processSrc_preserve o k x y (hav k (by simp)) h

/- ============================================================
   The forward edge of a mutual pair survives the cycle-breaking
   scan; the back-edge does not.
   ============================================================ -/

theorem breakCycles_forward (o : Conn) (A B : String) (K1 K2 K3 : List String)
    (hnd : (o.map Prod.fst).Nodup)
    (hkeys : o.map Prod.fst = K1 ++ (A :: (K2 ++ (B :: K3))))
    (hA : edgeB o A B = true) (_hB : edgeB o B A = true) :
    edgeB (breakCycles o) A B = true ∧ edgeB (breakCycles o) B A = false := by
  unfold breakCycles
  rw [hkeys] at hnd ⊢
  rcases List.nodup_append.mp hnd with ⟨_, h2, hdisj⟩
  rcases List.nodup_cons.mp h2 with ⟨hA2, h3⟩
  rcases List.nodup_append.mp h3 with ⟨_, h5, hdisj2⟩
  rcases List.nodup_cons.mp h5 with ⟨hBK3, _⟩
  have hABne : A ≠ B := by
    intro h
    exact hA2 (by rw [h]; exact List.mem_append_right _ (List.mem_cons_self _ _))
  have hBK1 : B ∉ K1 := by
    intro h
    exact hdisj h (List.mem_cons_of_mem _ (List.mem_append_right _ (List.mem_cons_self _ _)))
  have hBK2 : B ∉ K2 := by
    intro h
    exact hdisj2 h (List.mem_cons_self _ _)
  rw [List.foldl_append, List.foldl_cons, List.foldl_append, List.foldl_cons]
  have e1 : edgeB (K1.foldl processSrc o) A B = true :=
    edgeB_foldl_keys_preserve K1 o A B (fun s hs h => hBK1 (h ▸ hs)) hA
  rcases hg1 : alget (K1.foldl processSrc o) A with _ | egA
  · rw [edgeB_of_no_entry _ _ _ hg1] at e1
    exact absurd e1 (by simp)
  have hlb1 : linksBack egA B = true := by
    rw [edgeB_of_entry _ _ _ _ hg1] at e1
    exact e1
  have e2AB : edgeB (processSrc (K1.foldl processSrc o) A) A B = true :=
    edgeB_processSrc_preserve _ A A B (Ne.symm hABne) e1
  have e2BA : edgeB (processSrc (K1.foldl processSrc o) A) B A = false :=
    processSrc_kill _ A B egA hg1 hlb1
  have e3AB : edgeB (K2.foldl processSrc (processSrc (K1.foldl processSrc o) A)) A B
      = true :=
    edgeB_foldl_keys_preserve K2 _ A B (fun s hs h => hBK2 (h ▸ hs)) e2AB
  have e3BA : edgeB (K2.foldl processSrc (processSrc (K1.foldl processSrc o) A)) B A
      = false :=
    edgeB_foldl_keys_false_preserve K2 _ B A e2BA
  have e4AB : edgeB (processSrc
      (K2.foldl processSrc (processSrc (K1.foldl processSrc o) A)) B) A B = true :=
    processSrc_preserve_no_back _ B A e3BA e3AB
  have e4BA : edgeB (processSrc
      (K2.foldl processSrc (processSrc (K1.foldl processSrc o) A)) B) B A = false :=
    edgeB_processSrc_false_preserve _ B B A e3BA
  exact ⟨edgeB_foldl_keys_preserve K3 _ A B (fun s hs h => hBK3 (h ▸ hs)) e4AB,
    edgeB_foldl_keys_false_preserve K3 _ B A e4BA⟩

/-- Helper for the full forward-retention property of
`sanitize_connections` on a mutual two-node cycle between two
genuine nodes, where the `A` source entry is scanned first. -/
theorem sanitize_forward_helper (c : Conn) (nodes : List Node) (A B : String)
    (hnd : (c.map Prod.fst).Nodup)
    (hA : A ∈ validNames nodes) (hB : B ∈ validNames nodes) (hAB : A ≠ B)
    (hfwd : edgeB c A B = true) (hback : edgeB c B A = true)
    (horder : [A, B].Sublist (c.map Prod.fst)) :
    edgeB (sanitize_connections c nodes) A B = true ∧
      edgeB (sanitize_connections c nodes) B A = false := by
  set names := validNames nodes with hnames
  rcases sublist_pair_decomp A B c horder with ⟨l1, p, l2, q, l3, hc, hp1, hq1⟩
  obtain ⟨pk, pv⟩ := p
  obtain ⟨qk, qv⟩ := q
  simp only at hp1 hq1
  have hp2 : A = pk := hp1.symm
  have hq2 : B = qk := hq1.symm
  subst hp2
  subst hq2
  have hpmem : (A, pv) ∈ c := by rw [hc]; simp
  have hqmem : (B, qv) ∈ c := by rw [hc]; simp
  have hgA : alget c A = some pv := alget_of_nodup_mem c A pv hnd hpmem
  have hgB : alget c B = some qv := alget_of_nodup_mem c B qv hnd hqmem
  have hlbA : linksBack pv B = true := by
    rw [edgeB_of_entry c A B pv hgA] at hfwd
    exact hfwd
  have hlbB : linksBack qv A = true := by
    rw [edgeB_of_entry c B A qv hgB] at hback
    exact hback
  have hcmA : linksBack ⟨cleanMain names A pv.main⟩ B = true :=
    linksBack_cleanMain names A B pv.main hB (Ne.symm hAB) hlbA
  have hcmB : linksBack ⟨cleanMain names B qv.main⟩ A = true :=
    linksBack_cleanMain names B A qv.main hA hAB hlbB
  have hpeA : pass1Entry names (A, pv) = some (A, ⟨cleanMain names A pv.main⟩) := by
    unfold pass1Entry
    rw [if_pos (by simpa using hA), if_neg (by simp [linksBack_nonempty _ _ hcmA])]
  have hpeB : pass1Entry names (B, qv) = some (B, ⟨cleanMain names B qv.main⟩) := by
    unfold pass1Entry
    rw [if_pos (by simpa using hB), if_neg (by simp [linksBack_nonempty _ _ hcmB])]
  have hout : sanitizePass1 c names
      = l1.filterMap (pass1Entry names)
        ++ (A, ⟨cleanMain names A pv.main⟩)
          :: (l2.filterMap (pass1Entry names)
            ++ (B, ⟨cleanMain names B qv.main⟩) :: l3.filterMap (pass1Entry names)) := by
    rw [sanitizePass1_eq_filterMap c names hnd, hc]
    rw [List.filterMap_append, List.filterMap_cons_some hpeB,
      List.filterMap_append, List.filterMap_cons_some hpeA]
    simp [List.append_assoc]
  have hnd1 : ((sanitizePass1 c names).map Prod.fst).Nodup :=
    sanitizePass1_keys_nodup c names
  have hkeys : (sanitizePass1 c names).map Prod.fst
      = (l1.filterMap (pass1Entry names)).map Prod.fst
        ++ A :: ((l2.filterMap (pass1Entry names)).map Prod.fst
          ++ B :: (l3.filterMap (pass1Entry names)).map Prod.fst) := by
    rw [hout]
    simp [List.map_append]
  have hmemA : (A, (⟨cleanMain names A pv.main⟩ : EdgeGroup)) ∈ sanitizePass1 c names := by
    rw [hout]
    simp
  have hmemB : (B, (⟨cleanMain names B qv.main⟩ : EdgeGroup)) ∈ sanitizePass1 c names := by
    rw [hout]
    simp
  have hgA1 : alget (sanitizePass1 c names) A = some ⟨cleanMain names A pv.main⟩ :=
    alget_of_nodup_mem _ A _ hnd1 hmemA
  have hgB1 : alget (sanitizePass1 c names) B = some ⟨cleanMain names B qv.main⟩ :=
    alget_of_nodup_mem _ B _ hnd1 hmemB
  have hA1 : edgeB (sanitizePass1 c names) A B = true := by
    rw [edgeB_of_entry _ _ _ _ hgA1]
    exact hcmA
  have hB1 : edgeB (sanitizePass1 c names) B A = true := by
    rw [edgeB_of_entry _ _ _ _ hgB1]
    exact hcmB
  exact breakCycles_forward (sanitizePass1 c names) A B _ _ _ hnd1 hkeys hA1 hB1

/- ============================================================
   C9 machinery: sanitize is a pure filter.  The output relates to
   the input by selecting source entries (in order) and, inside a
   selected entry, selecting branches (in order) and links within a
   branch (in order); nothing is rewritten or invented.
   ============================================================ -/

/-- One output entry is a filtered form of one input entry: same
source name, branches selected in order, each kept branch a
sublist of the corresponding input branch. -/
def entryRef (a b : String × EdgeGroup) : Prop :=
  a.1 = b.1 ∧ ∃ msel, msel.Sublist b.2.main ∧
    List.Forall₂ (fun x y => List.Sublist x y) a.2.main msel

/-- The output is an ordered selection of filtered input entries. -/
def connRef (o i : Conn) : Prop :=
  ∃ sel, sel.Sublist i ∧ List.Forall₂ entryRef o sel

theorem forall₂_compose {α β γ : Type} (R : α → β → Prop) (S : β → γ → Prop)
    (T : α → γ → Prop) (hT : ∀ x y z, R x y → S y z → T x z) :
    ∀ a b c, List.Forall₂ R a b → List.Forall₂ S b c → List.Forall₂ T a c := by
  intro a b c hab hbc
  induction hab generalizing c with
  | nil =>
    cases hbc
    exact List.Forall₂.nil
  | cons hxy _ ih =>
    cases hbc with
    | cons hyz hrest =>
      exact List.Forall₂.cons (hT _ _ _ hxy hyz) (ih _ hrest)

theorem forall₂_sublist_map_filter (p : Link → Bool) (main : List (List Link)) :
    List.Forall₂ (fun x y => List.Sublist x y) (main.map (fun b => b.filter p)) main := by
  induction main with
  | nil => exact List.Forall₂.nil
  | cons b r ih => exact List.Forall₂.cons (List.filter_sublist b) ih

theorem cleanMain_cons (names : List String) (src : String) (b : List Link)
    (r : List (List Link)) :
    cleanMain names src (b :: r)
      = if (b.filter (keepLink names src)).isEmpty then cleanMain names src r
        else b.filter (keepLink names src) :: cleanMain names src r := by
  unfold cleanMain
  rw [List.map_cons, List.filter_cons]
  by_cases h : (b.filter (keepLink names src)).isEmpty = true
  · simp [h]
  · simp only [h]
    simp only [Bool.not_false, if_true, if_false]
    have hb : (!(b.filter (keepLink names src)).isEmpty) = true := by
      simp [h]
    simp [hb]

theorem cleanMain_ref (names : List String) (src : String)
    (main : List (List Link)) :
    ∃ msel, msel.Sublist main ∧
      List.Forall₂ (fun x y => List.Sublist x y) (cleanMain names src main) msel := by
  induction main with
  | nil => exact ⟨[], by simp [cleanMain], by simp [cleanMain]⟩
  | cons b r ih =>
    rcases ih with ⟨msel, hsub, hfa⟩
    rw [cleanMain_cons]
    by_cases h : (b.filter (keepLink names src)).isEmpty = true
    · rw [if_pos h]
      exact ⟨msel, hsub.cons b, hfa⟩
    · rw [if_neg h]
      exact ⟨b :: msel, hsub.cons₂ b, List.Forall₂.cons (List.filter_sublist b) hfa⟩

theorem filterMap_pass1_connRef (names : List String) (c : Conn) :
    connRef (c.filterMap (pass1Entry names)) c := by
  induction c with
  | nil => exact ⟨[], by simp, List.Forall₂.nil⟩
  | cons p r ih =>
    rcases ih with ⟨sel, hsub, hfa⟩
    rcases he : pass1Entry names p with _ | q
    · rw [List.filterMap_cons, he]
      exact ⟨sel, hsub.cons p, hfa⟩
    · rw [List.filterMap_cons, he]
      refine ⟨p :: sel, hsub.cons₂ p, List.Forall₂.cons ?_ hfa⟩
      have hkey := pass1Entry_key names p q he
      have hmain : q.2.main = cleanMain names p.1 p.2.main := by
        unfold pass1Entry at he
        split at he
        · split at he
          · exact absurd he (by simp)
          · cases he
            rfl
        · exact absurd he (by simp)
      refine ⟨hkey, ?_⟩
      rw [hmain]
      exact cleanMain_ref names p.1 p.2.main

/-- Pointwise relation: pass 2 keeps every entry in place and only
filters links inside existing branches. -/
def connPtw (o i : Conn) : Prop :=
  List.Forall₂ (fun a b => a.1 = b.1 ∧
    List.Forall₂ (fun x y => List.Sublist x y) a.2.main b.2.main) o i

theorem connPtw_refl (c : Conn) : connPtw c c := by
  induction c with
  | nil => exact List.Forall₂.nil
  | cons p r ih =>
    refine List.Forall₂.cons ⟨rfl, ?_⟩ ih
    induction p.2.main with
    | nil => exact List.Forall₂.nil
    | cons b br ih2 => exact List.Forall₂.cons (List.Sublist.refl b) ih2

theorem connPtw_trans (a b c : Conn) (h1 : connPtw a b) (h2 : connPtw b c) :
    connPtw a c := by
  refine forall₂_compose _ _ _ ?_ a b c h1 h2
  rintro x y z ⟨hk1, hm1⟩ ⟨hk2, hm2⟩
  exact ⟨hk1.trans hk2, forall₂_compose _ _ _
    (fun u v w huv hvw => huv.trans hvw) _ _ _ hm1 hm2⟩

theorem connPtw_alupdate_remove (c : Conn) (k s : String) :
    connPtw (alupdate c k (removeLinksTo s)) c := by
  induction c with
  | nil => exact List.Forall₂.nil
  | cons p r ih =>
    rw [alupdate]
    rw [List.map_cons]
    refine List.Forall₂.cons ?_ ih
    by_cases h : p.1 = k
    · rw [if_pos h]
      exact ⟨rfl, by
        rw [removeLinksTo_main]
        exact forall₂_sublist_map_filter _ p.2.main⟩
    · rw [if_neg h]
      exact ⟨rfl, by
        induction p.2.main with
        | nil => exact List.Forall₂.nil
        | cons b br ih2 => exact List.Forall₂.cons (List.Sublist.refl b) ih2⟩

theorem connPtw_processLink (s : String) (o : Conn) (l : Link) :
    connPtw (processLink s o l) o := by
  rcases processLink_cases s o l with h | ⟨d, _, h⟩
  · rw [h]; exact connPtw_refl o
  · rw [h]; exact connPtw_alupdate_remove o d s

theorem connPtw_foldl_links (s : String) (links : List Link) (o : Conn) :
    connPtw (links.foldl (processLink s) o) o := by
  induction links generalizing o with
  | nil => exact connPtw_refl o
  | cons l r ih =>
    rw [List.foldl_cons]
    exact connPtw_trans _ _ _ (ih (processLink s o l)) (connPtw_processLink s o l)

theorem connPtw_foldl_branches (s : String) (bs : List (List Link)) (o : Conn) :
    connPtw (bs.foldl (fun o b => b.foldl (processLink s) o) o) o := by
  induction bs generalizing o with
  | nil => exact connPtw_refl o
  | cons b r ih =>
    rw [List.foldl_cons]
    exact connPtw_trans _ _ _ (ih _) (connPtw_foldl_links s b o)

theorem connPtw_processSrc (o : Conn) (s : String) :
    connPtw (processSrc o s) o := by
  rcases hg : alget o s with _ | eg
  · rw [processSrc_eq_of_no_entry o s hg]
    exact connPtw_refl o
  · rw [processSrc_eq_fold o s eg hg]
    exact connPtw_foldl_branches s eg.main o

theorem connPtw_breakCycles (o : Conn) : connPtw (breakCycles o) o := by
  unfold breakCycles
  generalize o.map Prod.fst = ks
  induction ks generalizing o with
  | nil => exact connPtw_refl o
  | cons k r ih =>
    rw [List.foldl_cons]
    exact connPtw_trans _ _ _ (ih _) (connPtw_processSrc o k)

theorem connRef_of_ptw_ref (o m i : Conn) (hptw : connPtw o m)
    (href : connRef m i) : connRef o i := by
  rcases href with ⟨sel, hsub, hfa⟩
  refine ⟨sel, hsub, ?_⟩
  refine forall₂_compose _ _ _ ?_ o m sel hptw hfa
  rintro x y z ⟨hk1, hm1⟩ ⟨hk2, msel, hmsub, hm2⟩
  exact ⟨hk1.trans hk2, msel, hmsub,
    forall₂_compose _ _ _ (fun u v w huv hvw => huv.trans hvw) _ _ _ hm1 hm2⟩

/-- Under the dict guarantee (unique source keys), sanitization is a
pure three-level filter of its input. -/
theorem sanitize_connRef (c : Conn) (nodes : List Node)
    (hnd : (c.map Prod.fst).Nodup) :
    connRef (sanitize_connections c nodes) c := by
  unfold sanitize_connections
  rw [sanitizePass1_eq_filterMap c (validNames nodes) hnd]
  exact connRef_of_ptw_ref _ _ _
    (connPtw_breakCycles _) (filterMap_pass1_connRef (validNames nodes) c)

/-- Pass 2 never drops a source entry or a branch: keys and branch
counts are preserved exactly (it only empties branches in place). -/
theorem breakCycles_shape (o : Conn) :
    (breakCycles o).map Prod.fst = o.map Prod.fst ∧
      List.Forall₂ (fun a b => a.1 = b.1 ∧ a.2.main.length = b.2.main.length)
        (breakCycles o) o := by
  refine ⟨breakCycles_keys o, ?_⟩
  have h := connPtw_breakCycles o
  refine forall₂_compose _ _ _ ?_ _ _ _ h (connPtw_refl o)
  rintro x y z ⟨hk1, hm1⟩ ⟨hk2, hm2⟩
  exact ⟨hk1.trans hk2, by rw [hm1.length_eq, hm2.length_eq]⟩

/- ============================================================
   Node ordering: `reorder_nodes_for_triggers` (ai_service.py:74-82).
   ============================================================ -/

/-- `any(x in n.get("type","").lower() for x in [...])`. -/
def isTriggerType (t : String) : Bool :=
  ["cron", "webhook", "schedule", "trigger"].any
    (fun x => occursIn x.data (lowerChars t.data))

/-- Triggers first; `others` uses Python list membership (equality). -/
def reorder_nodes_for_triggers (nodes : List Node) : List Node :=
  let triggers := nodes.filter (fun n => isTriggerType n.type)
  let others := nodes.filter (fun n => decide (n ∉ triggers))
  triggers ++ others

/- ============================================================
   Structural Validator & Enricher: `ensure_valid_workflow`
   (ai_service.py:156-206).  The id generated from
   `hash(prompt)` and the result of `generate_connections_with_ai`
   are external inputs of the embedding.
   ============================================================ -/

def defaultPosition (i : Nat) : Int × Int := (200 + 220 * (i : Int), 300)

/-- Per-node defaulting loop body (ai_service.py:166-173).  A node
whose `parameters` is an explicit null and whose type is the HTTP
request type makes Python raise AttributeError on
`node["parameters"].setdefault`. -/
def enrichNode (i : Nat) (n : Node) : Except PyErr Node :=
  if n.type == "n8n-nodes-base.httpRequest" then
    match n.parameters.setdefault [] with
    | .val p => .ok { n with
        parameters := .val (p.setdefault "responseFormat" "json"),
        typeVersion := n.typeVersion.setdefault 1,
        position := n.position.setdefault (defaultPosition i) }
    | _ => .error .attributeError
  else .ok { n with
    parameters := n.parameters.setdefault [],
    typeVersion := n.typeVersion.setdefault 1,
    position := n.position.setdefault (defaultPosition i) }

def enrichFrom (i : Nat) : List Node → Except PyErr (List Node)
  | [] => .ok []
  | n :: rest =>
    match enrichNode i n with
    | .error e => .error e
    | .ok n2 =>
      match enrichFrom (i + 1) rest with
      | .error e => .error e
      | .ok rest2 => .ok (n2 :: rest2)

def linkTo (name : String) : Link := ⟨some name, some "main", some 0⟩

/-- The fallback linear chain dict comprehension (ai_service.py:197-200):
`{names[i]: {"main": [[{"node": names[i+1], "type": "main", "index": 0}]]}}`. -/
def chainPairs (names : List String) : List (String × EdgeGroup) :=
  (names.zip names.tail).map (fun ab => (ab.1, ⟨[[linkTo ab.2]]⟩))

def fallbackChain (names : List String) : Conn :=
  (chainPairs names).foldl (fun d kv => alset d kv.1 kv.2) []

def defaultSettings (s : Option SettingsJ) : SettingsJ :=
  let s0 := s.getD ⟨none, none, none⟩
  ⟨some (s0.timezone.getD "UTC"), some (s0.executionOrder.getD "sequential"),
    some (s0.saveManualExecutions.getD true)⟩

/-- Python truthiness of `workflow_json.get("name")`. -/
def truthyStr : Option String → Bool
  | none => false
  | some s => !(s == "")

/-- `ensure_valid_workflow` (ai_service.py:156-206).  `genId` models
the fresh id string derived from the prompt hash; `aiConn` models the
result of `generate_connections_with_ai` (empty when it fails or
returns nothing). -/
def ensure_valid_workflow (w : Workflow) (genId : String) (aiConn : Conn) :
    Except PyErr Workflow :=
  if !truthyStr w.name || w.nodes.isEmpty then
    .error (.valueError "Missing required workflow fields: name or nodes")
  else
    match enrichFrom 0 (reorder_nodes_for_triggers w.nodes) with
    | .error e => .error e
    | .ok nodes2 =>
      .ok { name := w.name, nodes := nodes2,
            id := some (match w.id with
              | some s => if s == "" then genId else s
              | none => genId),
            active := w.active, tags := some (w.tags.getD ["ai-generated"]),
            settings := some (defaultSettings w.settings),
            connections := sanitize_connections
              (if w.connections.isEmpty then
                (if aiConn.isEmpty then fallbackChain (nodes2.map Node.name) else aiConn)
              else w.connections) nodes2 }

/- ============================================================
   Code-node pipeline: `generate_code_node_js` (ai_service.py:249-295),
   `modernize_code_nodes` (ai_service.py:312-358),
   `lint_code_nodes` (ai_service.py:363-375).
   `looks_like_json_string` wraps `json.loads` (an external library),
   so it is a parameter `isJson` of the embedding, as is the LLM text
   for each regeneration call.
   ============================================================ -/

def pyStrip (s : String) : String := String.mk (stripChars s.data)

def jsFallbackPlain : String := "const items = $input.all();\nreturn items;"

def jsFallbackComment : String :=
  "const items = $input.all();\n// Generated fallback: pass-through\nreturn items;"

/-- `generate_code_node_js`: `aiOut` is the LLM text (`none` when the
call raised).  Empty content raises and is caught by the same handler. -/
def generate_code_node_js (aiOut : Option String) : String :=
  match aiOut with
  | none => jsFallbackPlain
  | some s =>
    let js := pyStrip s
    if js == "" then jsFallbackPlain
    else if !(strContains js "return") || !(strContains js "$input.all()") then
      jsFallbackComment
    else js

def badTokensModernize : List String := ["$json", "$input.item", "$item", "[0].json"]

/-- `params.get("jsCode") or params.get("functionCode") or params.get("code") or ""`. -/
def firstTruthy : List (Option String) → String
  | [] => ""
  | some s :: rest => if s == "" then firstTruthy rest else s
  | none :: rest => firstTruthy rest

/-- `"function" in node_type or "code" in node_type` on the lowered type. -/
def isScriptingType (t : String) : Bool :=
  occursIn "function".data (lowerChars t.data)
    || occursIn "code".data (lowerChars t.data)

/-- The migrated code body of one scripting node: pick the legacy key,
blank it if JSON-shaped, regenerate when legacy or blank, and append
the pass-through return when missing (ai_service.py:327-350). -/
def modernJs (isJson : String → Bool) (gen : Option String) (p : Params) : String :=
  let js0 := firstTruthy [alget p "jsCode", alget p "functionCode", alget p "code"]
  let js1 := if isJson js0 then "" else js0
  let js2 := if badTokensModernize.any (fun t => strContains js1 t)
      || pyStrip js1 == "" then generate_code_node_js gen else js1
  if !(strContains js2 "return") then js2 ++ "\nreturn $input.all();" else js2

/-- The migrated parameters dict of one scripting node. -/
def modernParams (isJson : String → Bool) (gen : Option String) (p : Params) : Params :=
  ((((p.erase "functionCode").erase "code").setdefault "language" "JavaScript").set
    "jsCode" (modernJs isJson gen p))

/-- One node of `modernize_code_nodes`.  A scripting node whose
`parameters` is explicit null crashes Python on `params.get`. -/
def modernizeNode (isJson : String → Bool) (gen : Option String) (n : Node) :
    Except PyErr Node :=
  if isScriptingType n.type then
    let n2 := if !(lowerChars n.type.data == "n8n-nodes-base.code".data) then
        { n with type := "n8n-nodes-base.code" } else n
    match n2.parameters.setdefault [] with
    | .val p => .ok { n2 with parameters := .val (modernParams isJson gen p) }
    | _ => .error .attributeError
  else .ok n

def modernizeFrom (isJson : String → Bool) (gen : Nat → Option String) :
    Nat → List Node → Except PyErr (List Node)
  | _, [] => .ok []
  | i, n :: rest =>
    match modernizeNode isJson (gen i) n with
    | .error e => .error e
    | .ok n2 =>
      match modernizeFrom isJson gen (i + 1) rest with
      | .error e => .error e
      | .ok rest2 => .ok (n2 :: rest2)

def modernize_code_nodes (isJson : String → Bool) (gen : Nat → Option String)
    (w : Workflow) : Except PyErr Workflow :=
  match modernizeFrom isJson gen 0 w.nodes with
  | .error e => .error e
  | .ok nodes2 => .ok { w with nodes := nodes2 }

/-- `validate_with_ai` never raises: it returns the reviewed graph or
the input unchanged on any failure (`review = none`). -/
def validate_with_ai (review : Option Workflow) (w : Workflow) : Workflow :=
  review.getD w

def lintBadTokens : List String := ["$input.item", "$item", "[0].json"]

/-- The lint scan: finds the first scripting node with a JSON-shaped
or legacy code body; crashes on a null `parameters`. -/
def lintScan (isJson : String → Bool) : List Node → Except PyErr Bool
  | [] => .ok false
  | n :: rest =>
    if n.type == "n8n-nodes-base.code" || n.type == "n8n-nodes-base.function" then
      match n.parameters with
      | .null => .error .attributeError
      | .missing => lintScan isJson rest
      | .val p =>
        let code := match alget p "jsCode" with
          | some s => if s == "" then (alget p "code").getD "" else s
          | none => (alget p "code").getD ""
        if isJson code || lintBadTokens.any (fun t => strContains code t) then
          .ok true
        else lintScan isJson rest
    else lintScan isJson rest

def lint_code_nodes (isJson : String → Bool) (review : Option Workflow)
    (w : Workflow) : Except PyErr Workflow :=
  match lintScan isJson w.nodes with
  | .error e => .error e
  | .ok bad => if bad then .ok (validate_with_ai review w) else .ok w

/- ============================================================
   Workflow Orchestrator: `generate_workflow` (ai_service.py:380-458).
   Each LLM interaction is an input of the embedding: `none` models a
   raised call, parse outcomes model `json.loads` on the raw text.
   ============================================================ -/

inductive ParseOutcome where
  | emptyResp
  | malformed
  | parsed (w : Workflow)
deriving DecidableEq, Repr

structure GenEnv where
  primary : Option ParseOutcome
  repair1 : Option Workflow
  connAI1 : Conn
  genId : String
  rebuild : Option ParseOutcome
  repair2 : Option Workflow
  connAI2 : Conn
  review : Option Workflow
  lintReview : Option Workflow
  isJson : String → Bool
  codeGen : Nat → Option String

/-- The last-resort scaffold of `repair_json_with_ai` (ai_service.py:69). -/
def scaffoldWorkflow : Workflow :=
  { name := some "AI Generated Workflow", nodes := [], id := none, active := false,
    tags := none, settings := none, connections := [] }

/-- `json.loads(raw_args) if raw_args else {}` with empty raw text. -/
def emptyWorkflow : Workflow :=
  { name := none, nodes := [], id := none, active := false, tags := none,
    settings := none, connections := [] }

def repairModel (r : Option Workflow) : Workflow := r.getD scaffoldWorkflow

def parseStep (po : ParseOutcome) (repair : Option Workflow) : Workflow :=
  match po with
  | .emptyResp => emptyWorkflow
  | .malformed => repairModel repair
  | .parsed w => w

inductive GenErr where
  | wrapped (e : PyErr)
deriving DecidableEq, Repr

/-- Steps 4 of the orchestrator: AI review, lint, modernization. -/
def pipelineTail (env : GenEnv) (v : Workflow) : Except PyErr Workflow :=
  match lint_code_nodes env.isJson env.lintReview (validate_with_ai env.review v) with
  | .error e => .error e
  | .ok enhanced2 => modernize_code_nodes env.isJson env.codeGen enhanced2

def generate_workflow (env : GenEnv) : Except GenErr Workflow :=
  match env.primary with
  | none => .error (.wrapped .transportError)
  | some po =>
    let wf0 := parseStep po env.repair1
    match ensure_valid_workflow wf0 env.genId env.connAI1 with
    | .ok v =>
      match pipelineTail env v with
      | .ok w2 => .ok w2
      | .error e => .error (.wrapped e)
    | .error (.valueError _) =>
      match env.rebuild with
      | none => .error (.wrapped .transportError)
      | some ro =>
        let wf1 := match ro with
          | .emptyResp => scaffoldWorkflow
          | .malformed => repairModel env.repair2
          | .parsed w => w
        match ensure_valid_workflow wf1 env.genId env.connAI2 with
        | .ok v =>
          match pipelineTail env v with
          | .ok w2 => .ok w2
          | .error e => .error (.wrapped e)
        | .error e => .error (.wrapped e)
    | .error e => .error (.wrapped e)

/- ============================================================
   Substring non-occurrence across an append whose right part opens
   with a character foreign to the needle.
   ============================================================ -/

theorem occursIn_append_false (n x y : List Char)
    (hx : occursIn n x = false) (hy : occursIn n y = false)
    (hhd : ∀ c, y.head? = some c → c ∉ n) :
    occursIn n (x ++ y) = false := by
  rcases hb : occursIn n (x ++ y) with _ | _
  · rfl
  · exfalso
    rcases (occursIn_iff n (x ++ y)).mp hb with ⟨p, t, hpt⟩
    have hpt2 : x ++ y = p ++ (n ++ t) := by rw [hpt, List.append_assoc]
    rcases List.append_eq_append_iff.mp hpt2 with ⟨a2, _, hya⟩ | ⟨c2, hxc, hnt⟩
    · have : occursIn n y = true := by
        rw [hya, ← List.append_assoc]
        exact occursIn_of_middle n a2 t
      rw [hy] at this
      exact absurd this (by simp)
    · rcases List.append_eq_append_iff.mp hnt with ⟨a3, hc3, hta⟩ | ⟨c3, hn3, hy3⟩
      · have : occursIn n x = true := by
          rw [hxc, hc3, ← List.append_assoc]
          exact occursIn_of_middle n p a3
        rw [hx] at this
        exact absurd this (by simp)
      · cases c3 with
        | nil =>
          have hn2 : n = c2 := by simpa using hn3
          have hocc : occursIn n x = true := by
            rw [hxc, ← hn2]
            have hm := occursIn_of_middle n p []
            simpa using hm
          rw [hx] at hocc
          exact absurd hocc (by simp)
        | cons ch cs =>
          have hhead : y.head? = some ch := by rw [hy3]; rfl
          have hmem : ch ∈ n := by
            rw [hn3]
            exact List.mem_append_right _ (List.mem_cons_self _ _)
          exact hhd ch hhead hmem

/- ============================================================
   C3 layer: the validator's node order.
   ============================================================ -/

theorem reorder_eq_filter (nodes : List Node) :
    reorder_nodes_for_triggers nodes
      = nodes.filter (fun n => isTriggerType n.type)
        ++ nodes.filter (fun n => !isTriggerType n.type) := by
  show (nodes.filter (fun n => isTriggerType n.type))
      ++ nodes.filter (fun n =>
        decide (n ∉ nodes.filter (fun n2 => isTriggerType n2.type)))
    = nodes.filter (fun n => isTriggerType n.type)
        ++ nodes.filter (fun n => !isTriggerType n.type)
  congr 1
  apply List.filter_congr
  intro x hx
  by_cases ht : isTriggerType x.type = true
  · have hmem : x ∈ nodes.filter (fun n => isTriggerType n.type) :=
      List.mem_filter.mpr ⟨hx, ht⟩
    simp [hmem, ht]
  · have hmem : x ∉ nodes.filter (fun n => isTriggerType n.type) := by
      intro hc
      exact ht (List.mem_filter.mp hc).2
    simp [hmem, ht]

theorem enrichNode_sig (i : Nat) (n n2 : Node) (h : enrichNode i n = .ok n2) :
    n2.name = n.name ∧ n2.type = n.type := by
  unfold enrichNode at h
  split at h
  · split at h
    · cases h
      exact ⟨rfl, rfl⟩
    · exact absurd h (by simp)
  · cases h
    exact ⟨rfl, rfl⟩

theorem enrichFrom_sig (i : Nat) (l l2 : List Node)
    (h : enrichFrom i l = .ok l2) :
    l2.map (fun n => (n.name, n.type)) = l.map (fun n => (n.name, n.type)) := by
  induction l generalizing i l2 with
  | nil =>
    unfold enrichFrom at h
    cases h
    rfl
  | cons n rest ih =>
    unfold enrichFrom at h
    rcases he : enrichNode i n with e | n2
    · rw [he] at h; exact absurd h (by simp)
    · rw [he] at h
      rcases hr : enrichFrom (i + 1) rest with e | rest2
      · rw [hr] at h; exact absurd h (by simp)
      · rw [hr] at h
        cases h
        rcases enrichNode_sig i n n2 he with ⟨h1, h2⟩
        rw [List.map_cons, List.map_cons, ih (i + 1) rest2 hr, h1, h2]

/-- Forward characterization of a successful `ensure_valid_workflow`. -/
theorem ensure_ok_spec (w : Workflow) (genId : String) (aiConn : Conn)
    (w2 : Workflow) (h : ensure_valid_workflow w genId aiConn = .ok w2) :
    ∃ nodes2, enrichFrom 0 (reorder_nodes_for_triggers w.nodes) = .ok nodes2 ∧
      truthyStr w.name = true ∧ w.nodes ≠ [] ∧
      w2 = { name := w.name, nodes := nodes2,
             id := some (match w.id with
               | some s => if s == "" then genId else s
               | none => genId),
             active := w.active, tags := some (w.tags.getD ["ai-generated"]),
             settings := some (defaultSettings w.settings),
             connections := sanitize_connections
               (if w.connections.isEmpty then
                 (if aiConn.isEmpty then fallbackChain (nodes2.map Node.name)
                  else aiConn)
               else w.connections) nodes2 } := by
  unfold ensure_valid_workflow at h
  split at h
  · exact absurd h (by simp)
  · next hcond =>
    have hcond2 : truthyStr w.name = true ∧ w.nodes.isEmpty = false := by
      rcases h1 : truthyStr w.name with _ | _ <;>
        rcases h2 : w.nodes.isEmpty with _ | _ <;>
        simp [h1, h2] at hcond ⊢
    rcases he : enrichFrom 0 (reorder_nodes_for_triggers w.nodes) with e | nodes2
    · rw [he] at h
      exact absurd h (by simp)
    · rw [he] at h
      refine ⟨nodes2, rfl, hcond2.1, ?_, ?_⟩
      · intro hnil
        rw [hnil] at hcond2
        simp at hcond2
      · exact (Except.ok.inj h).symm

/- ============================================================
   C5 layer: field defaulting.
   ============================================================ -/

theorem JField.isVal_setdefault {α : Type} (f : JField α) (d : α)
    (h : f ≠ JField.null) : (f.setdefault d).isVal = true := by
  cases f with
  | missing => rfl
  | null => exact absurd rfl h
  | val a => rfl

theorem enrichNode_val_fields (i : Nat) (n n2 : Node) (h : enrichNode i n = .ok n2)
    (hp : n.parameters ≠ JField.null) (htv : n.typeVersion ≠ JField.null)
    (hpos : n.position ≠ JField.null) :
    n2.parameters.isVal = true ∧ n2.typeVersion.isVal = true ∧
      n2.position.isVal = true := by
  unfold enrichNode at h
  split at h
  · split at h
    · cases h
      exact ⟨rfl, JField.isVal_setdefault _ _ htv, JField.isVal_setdefault _ _ hpos⟩
    · exact absurd h (by simp)
  · cases h
    exact ⟨JField.isVal_setdefault _ _ hp, JField.isVal_setdefault _ _ htv,
      JField.isVal_setdefault _ _ hpos⟩

theorem enrichFrom_mem (i : Nat) (l l2 : List Node) (h : enrichFrom i l = .ok l2) :
    ∀ n2 ∈ l2, ∃ n ∈ l, ∃ j, enrichNode j n = .ok n2 := by
  induction l generalizing i l2 with
  | nil =>
    unfold enrichFrom at h
    cases h
    intro n2 hn2
    exact absurd hn2 (by simp)
  | cons n rest ih =>
    unfold enrichFrom at h
    rcases he : enrichNode i n with e | m2
    · rw [he] at h; exact absurd h (by simp)
    · rw [he] at h
      rcases hr : enrichFrom (i + 1) rest with e | rest2
      · rw [hr] at h; exact absurd h (by simp)
      · rw [hr] at h
        cases h
        intro n2 hn2
        rcases List.mem_cons.mp hn2 with rfl | hn2r
        · exact ⟨n, by simp, i, he⟩
        · rcases ih (i + 1) rest2 hr n2 hn2r with ⟨m, hm, j, hj⟩
          exact ⟨m, List.mem_cons_of_mem _ hm, j, hj⟩

theorem mem_reorder (nodes : List Node) (n : Node)
    (h : n ∈ reorder_nodes_for_triggers nodes) : n ∈ nodes := by
  rw [reorder_eq_filter] at h
  rcases List.mem_append.mp h with h2 | h2
  · exact (List.mem_filter.mp h2).1
  · exact (List.mem_filter.mp h2).1

/- ============================================================
   C4 layer: stability of a second validation run.
   ============================================================ -/

theorem JField.setdefault_ne_missing {α : Type} (f : JField α) (d : α) :
    f.setdefault d ≠ JField.missing := by
  cases f <;> simp [JField.setdefault]

theorem JField.setdefault_of_ne_missing {α : Type} (f : JField α) (d : α)
    (h : f ≠ JField.missing) : f.setdefault d = f := by
  cases f with
  | missing => exact absurd rfl h
  | null => rfl
  | val a => rfl

theorem Params.setdefault_contains (p : Params) (k v : String) :
    ((p.setdefault k v).map Prod.fst).contains k = true := by
  unfold Params.setdefault
  by_cases h : (p.map Prod.fst).contains k = true
  · rw [if_pos h]
    exact h
  · rw [if_neg h]
    simp

theorem Params.setdefault_of_contains (p : Params) (k v : String)
    (h : (p.map Prod.fst).contains k = true) : p.setdefault k v = p := by
  unfold Params.setdefault
  rw [if_pos h]

theorem Params.setdefault_idem (p : Params) (k v : String) :
    (p.setdefault k v).setdefault k v = p.setdefault k v :=
  Params.setdefault_of_contains _ k v (Params.setdefault_contains p k v)

theorem enrichNode_idem (i j : Nat) (n n2 : Node) (h : enrichNode i n = .ok n2) :
    enrichNode j n2 = .ok n2 := by
  unfold enrichNode at h ⊢
  split at h
  · next htype =>
    split at h
    · next p hp =>
      cases h
      rw [if_pos (by simpa using htype)]
      have hval : JField.setdefault (JField.val (p.setdefault "responseFormat" "json"))
          ([] : Params) = JField.val (p.setdefault "responseFormat" "json") := rfl
      simp only [hval]
      rw [JField.setdefault_of_ne_missing _ _ (JField.setdefault_ne_missing _ _),
        JField.setdefault_of_ne_missing _ _ (JField.setdefault_ne_missing _ _),
        Params.setdefault_idem]
    · exact absurd h (by simp)
  · next htype =>
    cases h
    rw [if_neg (by simpa using htype)]
    rw [JField.setdefault_of_ne_missing _ _ (JField.setdefault_ne_missing _ _),
      JField.setdefault_of_ne_missing _ _ (JField.setdefault_ne_missing _ _),
      JField.setdefault_of_ne_missing _ _ (JField.setdefault_ne_missing _ _)]

theorem enrichFrom_idem (i j : Nat) (l l2 : List Node)
    (h : enrichFrom i l = .ok l2) : enrichFrom j l2 = .ok l2 := by
  induction l generalizing i j l2 with
  | nil =>
    unfold enrichFrom at h
    cases h
    rfl
  | cons n rest ih =>
    unfold enrichFrom at h
    rcases he : enrichNode i n with e | n2
    · rw [he] at h; exact absurd h (by simp)
    · rw [he] at h
      rcases hr : enrichFrom (i + 1) rest with e | rest2
      · rw [hr] at h; exact absurd h (by simp)
      · rw [hr] at h
        cases h
        unfold enrichFrom
        rw [enrichNode_idem i j n n2 he, ih (i + 1) (j + 1) rest2 hr]

theorem enrichFrom_types (i : Nat) (l l2 : List Node) (h : enrichFrom i l = .ok l2) :
    List.Forall₂ (fun a b => b.type = a.type) l l2 := by
  induction l generalizing i l2 with
  | nil =>
    unfold enrichFrom at h
    cases h
    exact List.Forall₂.nil
  | cons n rest ih =>
    unfold enrichFrom at h
    rcases he : enrichNode i n with e | n2
    · rw [he] at h; exact absurd h (by simp)
    · rw [he] at h
      rcases hr : enrichFrom (i + 1) rest with e | rest2
      · rw [hr] at h; exact absurd h (by simp)
      · rw [hr] at h
        cases h
        exact List.Forall₂.cons (enrichNode_sig i n n2 he).2 (ih (i + 1) rest2 hr)

theorem forall₂_append_split {α β : Type} (R : α → β → Prop) (a b : List α)
    (l : List β) (h : List.Forall₂ R (a ++ b) l) :
    ∃ a2 b2, l = a2 ++ b2 ∧ List.Forall₂ R a a2 ∧ List.Forall₂ R b b2 := by
  induction a generalizing l with
  | nil => exact ⟨[], l, rfl, List.Forall₂.nil, h⟩
  | cons x xs ih =>
    rw [List.cons_append] at h
    cases h with
    | cons hxy hrest =>
      rcases ih _ hrest with ⟨a2, b2, rfl, hfa, hfb⟩
      exact ⟨_ :: a2, b2, rfl, List.Forall₂.cons hxy hfa, hfb⟩

theorem forall₂_mem_left {α β : Type} (R : α → β → Prop) (l1 : List α)
    (l2 : List β) (h : List.Forall₂ R l1 l2) :
    ∀ a ∈ l1, ∃ b ∈ l2, R a b := by
  induction h with
  | nil => intro a ha; exact absurd ha (by simp)
  | cons hxy _ ih =>
    intro a ha
    rcases List.mem_cons.mp ha with rfl | har
    · exact ⟨_, by simp, hxy⟩
    · rcases ih a har with ⟨b, hb, hr⟩
      exact ⟨b, List.mem_cons_of_mem _ hb, hr⟩

theorem reorder_eq_self (t o : List Node)
    (ht : ∀ n ∈ t, isTriggerType n.type = true)
    (ho : ∀ n ∈ o, isTriggerType n.type = false) :
    reorder_nodes_for_triggers (t ++ o) = t ++ o := by
  rw [reorder_eq_filter, List.filter_append, List.filter_append]
  rw [List.filter_eq_self.mpr ht]
  rw [show (o.filter (fun n => isTriggerType n.type)) = [] from
    List.filter_eq_nil_iff.mpr (fun a ha => by simp [ho a ha])]
  rw [show (t.filter (fun n => !isTriggerType n.type)) = [] from
    List.filter_eq_nil_iff.mpr (fun a ha => by simp [ht a ha])]
  rw [List.filter_eq_self.mpr (fun a ha => by simp [ho a ha])]
  simp

/-- The reordered-and-enriched node list is a fixed point of reordering. -/
theorem reorder_idem_enriched (nodes nodes2 : List Node)
    (h : enrichFrom 0 (reorder_nodes_for_triggers nodes) = .ok nodes2) :
    reorder_nodes_for_triggers nodes2 = nodes2 := by
  rw [reorder_eq_filter] at h
  have hfa := enrichFrom_types 0 _ _ h
  rcases forall₂_append_split _ _ _ _ hfa with ⟨t2, o2, rfl, hft, hfo⟩
  apply reorder_eq_self
  · intro n hn
    rcases forall₂_mem_left _ _ _ hft.flip n hn with ⟨m, hm, hr⟩
    rw [hr]
    exact (List.mem_filter.mp hm).2
  · intro n hn
    rcases forall₂_mem_left _ _ _ hfo.flip n hn with ⟨m, hm, hr⟩
    rw [hr]
    have := (List.mem_filter.mp hm).2
    simpa using this

/- ============================================================
   Sanitize is idempotent on outputs without emptied branches.
   ============================================================ -/

theorem filterMap_eq_self {α : Type} (f : α → Option α) (l : List α)
    (h : ∀ a ∈ l, f a = some a) : l.filterMap f = l := by
  induction l with
  | nil => rfl
  | cons x xs ih =>
    rw [List.filterMap_cons, h x (by simp), ih (fun a ha => h a (by simp [ha]))]

theorem map_eq_self {α : Type} (f : α → α) (l : List α)
    (h : ∀ a ∈ l, f a = a) : l.map f = l := by
  induction l with
  | nil => rfl
  | cons x xs ih =>
    rw [List.map_cons, h x (by simp), ih (fun a ha => h a (by simp [ha]))]

theorem sanitizePass1_main_ne_nil (c : Conn) (names : List String) :
    ∀ p ∈ sanitizePass1 c names, p.2.main ≠ [] := by
  unfold sanitizePass1
  suffices hgen : ∀ acc : Conn, (∀ p ∈ acc, p.2.main ≠ []) →
      ∀ p ∈ (c.foldl
        (fun out p =>
          if names.contains p.1 then
            let cm := cleanMain names p.1 p.2.main
            if cm.isEmpty then out else alset out p.1 ⟨cm⟩
          else out) acc), p.2.main ≠ [] by
    exact hgen [] (by intro p hp; exact absurd hp (by simp))
  induction c with
  | nil => intro acc hacc; exact hacc
  | cons p r ih =>
    intro acc hacc
    rw [List.foldl_cons]
    apply ih
    dsimp only
    split
    · split
      · exact hacc
      · next _ hne =>
        intro q hq
        unfold alset at hq
        split at hq
        · unfold alupdate at hq
          rcases List.mem_map.mp hq with ⟨q0, hq0, hqq⟩
          split at hqq
          · subst hqq
            simpa using hne
          · subst hqq
            exact hacc q0 hq0
        · rcases List.mem_append.mp hq with h2 | h2
          · exact hacc q h2
          · rcases List.mem_singleton.mp h2 with rfl
            simpa using hne
    · exact hacc

theorem sanitize_main_ne_nil (c : Conn) (nodes : List Node) :
    ∀ p ∈ sanitize_connections c nodes, p.2.main ≠ [] := by
  intro p hp
  have hshape := (breakCycles_shape (sanitizePass1 c (validNames nodes))).2
  rcases forall₂_mem_left _ _ _ hshape p hp with ⟨q, hq, _, hlen⟩
  have hq2 := sanitizePass1_main_ne_nil c (validNames nodes) q hq
  intro hnil
  rw [hnil] at hlen
  have : q.2.main = [] := List.length_eq_zero.mp hlen.symm
  exact hq2 this

theorem pass1_id (c : Conn) (names : List String)
    (hval : ConnValid names c)
    (hmain : ∀ p ∈ c, p.2.main ≠ [])
    (hnb : ∀ p ∈ c, ∀ b ∈ p.2.main, b ≠ [])
    (hnd : (c.map Prod.fst).Nodup) :
    sanitizePass1 c names = c := by
  rw [sanitizePass1_eq_filterMap c names hnd]
  apply filterMap_eq_self
  intro p hp
  rcases hval p hp with ⟨hkey, hlinks⟩
  have hclean : cleanMain names p.1 p.2.main = p.2.main := by
    unfold cleanMain
    have hmap : p.2.main.map (fun b => b.filter (keepLink names p.1)) = p.2.main := by
      apply map_eq_self
      intro b hb
      apply List.filter_eq_self.mpr
      intro l hl
      rcases hlinks b hb l hl with ⟨d, hnode, hdn, hdne⟩
      unfold keepLink
      rw [hnode]
      simp [hdn, hdne]
    rw [hmap]
    apply List.filter_eq_self.mpr
    intro b hb
    have := hnb p hp b hb
    simpa using this
  unfold pass1Entry
  rw [if_pos (by simpa using hkey), hclean]
  rw [if_neg (by simpa using hmain p hp)]

theorem foldl_links_id (s : String) (c : Conn) (links : List Link)
    (h : ∀ l ∈ links, processLink s c l = c) :
    links.foldl (processLink s) c = c := by
  induction links with
  | nil => rfl
  | cons l r ih =>
    rw [List.foldl_cons, h l (by simp), ih (fun l2 hl2 => h l2 (by simp [hl2]))]

theorem foldl_branches_id (s : String) (c : Conn) (bs : List (List Link))
    (h : ∀ b ∈ bs, b.foldl (processLink s) c = c) :
    bs.foldl (fun o b => b.foldl (processLink s) o) c = c := by
  induction bs with
  | nil => rfl
  | cons b r ih =>
    rw [List.foldl_cons, h b (by simp), ih (fun b2 hb2 => h b2 (by simp [hb2]))]

theorem processSrc_id (c : Conn) (s : String)
    (hnm : ∀ a b, edgeB c a b = true → edgeB c b a = false) :
    processSrc c s = c := by
  rcases hg : alget c s with _ | eg
  · exact processSrc_eq_of_no_entry c s hg
  · rw [processSrc_eq_fold c s eg hg]
    apply foldl_branches_id
    intro b hb
    apply foldl_links_id
    intro l hl
    rcases hn : l.node with _ | d
    · exact processLink_eq_of_node_none s c l hn
    · rcases hgd : alget c d with _ | egd
      · exact processLink_eq_of_no_entry s c l d hn hgd
      · rcases hlb : linksBack egd s with _ | _
        · exact processLink_eq_of_no_back s c l d egd hn hgd hlb
        · exfalso
          have hsd : edgeB c s d = true := by
            rw [edgeB_of_entry c s d eg hg]
            unfold linksBack
            simp only [List.any_eq_true]
            exact ⟨b, hb, l, hl, by simp [hn]⟩
          have := hnm s d hsd
          rw [edgeB_of_entry c d s egd hgd] at this
          rw [hlb] at this
          exact absurd this (by simp)

theorem breakCycles_id (c : Conn)
    (hnm : ∀ a b, edgeB c a b = true → edgeB c b a = false) :
    breakCycles c = c := by
  unfold breakCycles
  generalize c.map Prod.fst = ks
  induction ks with
  | nil => rfl
  | cons k r ih =>
    rw [List.foldl_cons, processSrc_id c k hnm, ih]

theorem sanitize_idem (c : Conn) (nodes : List Node)
    (hnb : ∀ p ∈ sanitize_connections c nodes, ∀ b ∈ p.2.main, b ≠ []) :
    sanitize_connections (sanitize_connections c nodes) nodes
      = sanitize_connections c nodes := by
  have hval := sanitize_valid c nodes
  have hnd := sanitize_keys_nodup c nodes
  have hmain := sanitize_main_ne_nil c nodes
  have hnm := fun a b => sanitize_no_mutual c nodes a b
  conv_lhs => rw [sanitize_connections]
  rw [pass1_id _ _ hval hmain hnb hnd]
  exact breakCycles_id _ hnm

theorem reorder_ne_nil (nodes : List Node) (h : nodes ≠ []) :
    reorder_nodes_for_triggers nodes ≠ [] := by
  rw [reorder_eq_filter]
  intro hc
  rcases List.append_eq_nil.mp hc with ⟨ht, ho⟩
  cases nodes with
  | nil => exact h rfl
  | cons n r =>
    by_cases htr : isTriggerType n.type = true
    · have hm : n ∈ (n :: r).filter (fun m => isTriggerType m.type) :=
        List.mem_filter.mpr ⟨by simp, htr⟩
      rw [ht] at hm
      exact absurd hm (by simp)
    · have hm : n ∈ (n :: r).filter (fun m => !isTriggerType m.type) :=
        List.mem_filter.mpr ⟨by simp, by simp [htr]⟩
      rw [ho] at hm
      exact absurd hm (by simp)

theorem enrichFrom_ne_nil (i : Nat) (l l2 : List Node)
    (h : enrichFrom i l = .ok l2) (hl : l ≠ []) : l2 ≠ [] := by
  intro hc
  apply hl
  have hsig := enrichFrom_sig i l l2 h
  rw [hc] at hsig
  exact List.map_eq_nil_iff.mp hsig.symm

theorem ensureId_stable (wid : Option String) (genId : String) :
    (if ((match wid with
        | some s => if s == "" then genId else s
        | none => genId) == "") = true then genId
      else (match wid with
        | some s => if s == "" then genId else s
        | none => genId))
    = (match wid with
        | some s => if s == "" then genId else s
        | none => genId) := by
  cases wid with
  | none =>
    by_cases h : (genId == "") = true <;> simp [h]
  | some s =>
    by_cases hs : (s == "") = true
    · by_cases h : (genId == "") = true <;> simp [hs, h]
    · simp [hs]

theorem defaultSettings_idem (s : Option SettingsJ) :
    defaultSettings (some (defaultSettings s)) = defaultSettings s := by
  unfold defaultSettings
  simp

/-- A second validation run is the identity provided the first run's
sanitized connections are non-empty and contain no emptied branch. -/
theorem ensure_idem (w : Workflow) (genId : String) (aiConn aiConn2 : Conn)
    (w1 : Workflow) (h1 : ensure_valid_workflow w genId aiConn = .ok w1)
    (hne : w1.connections ≠ [])
    (hnb : ∀ p ∈ w1.connections, ∀ b ∈ p.2.main, b ≠ []) :
    ensure_valid_workflow w1 genId aiConn2 = .ok w1 := by
  rcases ensure_ok_spec w genId aiConn w1 h1 with ⟨nodes2, henr, htru, hwn, hw1⟩
  have hreord := reorder_idem_enriched w.nodes nodes2 henr
  have hidem := enrichFrom_idem 0 0 _ nodes2 henr
  have hn2ne : nodes2 ≠ [] :=
    enrichFrom_ne_nil 0 _ nodes2 henr (reorder_ne_nil w.nodes hwn)
  subst hw1
  dsimp only at hne hnb
  unfold ensure_valid_workflow
  dsimp only
  have hcond : (!truthyStr w.name || nodes2.isEmpty) = false := by
    rw [htru]
    simp [List.isEmpty_iff, hn2ne]
  rw [if_neg (by rw [hcond]; simp)]
  rw [hreord, hidem]
  dsimp only
  refine congrArg Except.ok ?_
  have hSne : (sanitize_connections
      (if w.connections.isEmpty = true then
        (if aiConn.isEmpty = true then fallbackChain (nodes2.map Node.name)
         else aiConn)
      else w.connections) nodes2).isEmpty = false := by
    rcases he : (sanitize_connections _ nodes2).isEmpty with _ | _
    · rfl
    · exact absurd (List.isEmpty_iff.mp he) hne
  rw [ensureId_stable, defaultSettings_idem]
  simp only [Option.getD_some]
  rw [hSne]
  simp only [Bool.false_eq_true, if_false]
  rw [sanitize_idem _ _ hnb]

/- ============================================================
   C6 layer: the deterministic fallback chain.
   ============================================================ -/

theorem zip_map_fst_sublist {α β : Type} (l : List α) (l2 : List β) :
    ((l.zip l2).map Prod.fst).Sublist l := by
  induction l generalizing l2 with
  | nil => simp
  | cons x xs ih =>
    cases l2 with
    | nil => simp
    | cons y ys =>
      rw [List.zip_cons_cons, List.map_cons]
      exact (ih ys).cons₂ x

theorem foldl_alset_eq_self {β : Type} (L : List (String × β)) (acc : List (String × β))
    (hnd : (L.map Prod.fst).Nodup)
    (hdis : ∀ k ∈ L.map Prod.fst, k ∉ acc.map Prod.fst) :
    L.foldl (fun d kv => alset d kv.1 kv.2) acc = acc ++ L := by
  induction L generalizing acc with
  | nil => simp
  | cons kv r ih =>
    rw [List.foldl_cons]
    have hk : kv.1 ∉ acc.map Prod.fst := hdis kv.1 (by simp)
    rw [alset_of_not_mem acc kv.1 kv.2 hk]
    simp only [List.map_cons, List.nodup_cons] at hnd
    have := ih (acc ++ [(kv.1, kv.2)]) hnd.2 ?_
    · rw [this, List.append_assoc]
      rfl
    · intro k hk2
      simp only [List.map_append, List.mem_append]
      intro hcon
      rcases hcon with h2 | h2
      · exact hdis k (by simp [hk2]) h2
      · have hkk : k = kv.1 := by simpa using h2
        exact hnd.1 (hkk ▸ hk2)

theorem fallbackChain_eq_chainPairs (names : List String) (hnd : names.Nodup) :
    fallbackChain names = chainPairs names := by
  unfold fallbackChain
  have hkeys : (chainPairs names).map Prod.fst = (names.zip names.tail).map Prod.fst := by
    unfold chainPairs
    rw [List.map_map]
    rfl
  have hnd2 : ((chainPairs names).map Prod.fst).Nodup := by
    rw [hkeys]
    exact (zip_map_fst_sublist names names.tail).nodup hnd
  have := foldl_alset_eq_self (chainPairs names) [] hnd2 (by simp)
  simpa using this

/-- The connections of a successful validation run with empty input
connections and failed AI inference are exactly the sanitized
successor chain over the trigger-reordered node names. -/
theorem ensure_fallback_conns (w : Workflow) (genId : String) (w2 : Workflow)
    (hconn : w.connections = [])
    (hnd : (w.nodes.map Node.name).Nodup)
    (h : ensure_valid_workflow w genId [] = .ok w2) :
    w2.connections
      = sanitize_connections (chainPairs (w2.nodes.map Node.name)) w2.nodes := by
  rcases ensure_ok_spec w genId [] w2 h with ⟨nodes2, henr, _, _, hw2⟩
  have hnames2 : nodes2.map Node.name = (reorder_nodes_for_triggers w.nodes).map Node.name := by
    have hsig := enrichFrom_sig 0 _ nodes2 henr
    have h1 := congrArg (List.map Prod.fst) hsig
    rw [List.map_map, List.map_map] at h1
    exact h1
  have hperm : List.Perm ((reorder_nodes_for_triggers w.nodes).map Node.name)
      (w.nodes.map Node.name) := by
    rw [reorder_eq_filter]
    exact (List.filter_append_perm _ w.nodes).map Node.name
  have hnd2 : (nodes2.map Node.name).Nodup := by
    rw [hnames2]
    exact (hperm.nodup_iff).mpr hnd
  rw [hw2]
  dsimp only
  rw [hconn]
  simp only [List.isEmpty_nil, if_true]
  rw [fallbackChain_eq_chainPairs _ hnd2]

/- ============================================================
   C8 layer: the modernizer's guarantees on code bodies.
   ============================================================ -/

/-- No deprecated single-item accessor idiom occurs in `s`. -/
def noLegacy (s : String) : Prop :=
  ∀ tok ∈ badTokensModernize, strContains s tok = false

theorem alget_append {β : Type} (l l2 : List (String × β)) (k : String) :
    alget (l ++ l2) k
      = match alget l k with
        | none => alget l2 k
        | some v => some v := by
  induction l with
  | nil => rfl
  | cons p r ih =>
    obtain ⟨pk, pv⟩ := p
    by_cases h : pk = k
    · rw [List.cons_append, alget_cons, if_pos h, alget_cons, if_pos h]
    · rw [List.cons_append, alget_cons, if_neg h, alget_cons, if_neg h, ih]

theorem alget_alset_self {β : Type} (l : List (String × β)) (k : String) (v : β) :
    alget (alset l k v) k = some v := by
  unfold alset
  by_cases h : ((l.map Prod.fst).contains k) = true
  · rw [if_pos h, alget_alupdate, if_pos rfl]
    rcases alget_isSome_of_mem_keys l k (by simpa using h) with ⟨w, hw⟩
    rw [hw]
    rfl
  · rw [if_neg h, alget_append]
    have hn : alget l k = none := (alget_eq_none_iff l k).mpr
      (by intro hc; exact h (by simpa using hc))
    rw [hn]
    simp [alget]

theorem noLegacy_jsFallbackPlain : noLegacy jsFallbackPlain := by
  intro tok htok
  simp only [badTokensModernize, List.mem_cons, List.not_mem_nil, or_false] at htok
  rcases htok with rfl | rfl | rfl | rfl <;> decide

theorem noLegacy_jsFallbackComment : noLegacy jsFallbackComment := by
  intro tok htok
  simp only [badTokensModernize, List.mem_cons, List.not_mem_nil, or_false] at htok
  rcases htok with rfl | rfl | rfl | rfl <;> decide

theorem gen_js_return (aiOut : Option String) :
    strContains (generate_code_node_js aiOut) "return" = true := by
  unfold generate_code_node_js
  rcases aiOut with _ | s
  · decide
  · dsimp only
    by_cases h1 : (pyStrip s == "") = true
    · rw [if_pos h1]
      decide
    · rw [if_neg h1]
      by_cases h2 : (!strContains (pyStrip s) "return"
          || !strContains (pyStrip s) "$input.all()") = true
      · rw [if_pos h2]
        decide
      · rw [if_neg h2]
        rcases hr : strContains (pyStrip s) "return" with _ | _
        · exfalso
          apply h2
          rw [hr]
          rfl
        · rfl

theorem gen_js_noLegacy (aiOut : Option String)
    (h : ∀ s, aiOut = some s → noLegacy s) :
    noLegacy (generate_code_node_js aiOut) := by
  unfold generate_code_node_js
  rcases aiOut with _ | s
  · exact noLegacy_jsFallbackPlain
  · dsimp only
    by_cases h1 : (pyStrip s == "") = true
    · rw [if_pos h1]
      exact noLegacy_jsFallbackPlain
    · rw [if_neg h1]
      by_cases h2 : (!strContains (pyStrip s) "return"
          || !strContains (pyStrip s) "$input.all()") = true
      · rw [if_pos h2]
        exact noLegacy_jsFallbackComment
      · rw [if_neg h2]
        intro tok htok
        have hs := h s rfl tok htok
        exact occursIn_stripChars_false tok.data s.data hs

theorem strContains_append_return (x : String) :
    strContains (x ++ "\nreturn $input.all();") "return" = true := by
  unfold strContains
  rw [String.data_append]
  apply occursIn_append_right
  decide

theorem noLegacy_append_return (x : String) (hx : noLegacy x) :
    noLegacy (x ++ "\nreturn $input.all();") := by
  intro tok htok
  have hxf := hx tok htok
  unfold strContains at hxf ⊢
  rw [String.data_append]
  simp only [badTokensModernize, List.mem_cons, List.not_mem_nil, or_false] at htok
  rcases htok with rfl | rfl | rfl | rfl <;>
    · apply occursIn_append_false _ _ _ hxf (by decide)
      intro c hc
      have hcn : c = Char.ofNat 10 := by
        have : (("\nreturn $input.all();" : String).data.head?) = some (Char.ofNat 10) := by decide
        rw [this] at hc
        exact (Option.some.inj hc).symm
      subst hcn
      decide

theorem modernJs_return (isJson : String → Bool) (gen : Option String) (p : Params) :
    strContains (modernJs isJson gen p) "return" = true := by
  unfold modernJs
  dsimp only
  set js1 := (if isJson (firstTruthy [alget p "jsCode", alget p "functionCode",
    alget p "code"]) then ""
    else firstTruthy [alget p "jsCode", alget p "functionCode", alget p "code"])
  set js2 := (if badTokensModernize.any (fun t => strContains js1 t)
      || pyStrip js1 == "" then generate_code_node_js gen else js1)
  rcases hb : strContains js2 "return" with _ | _
  · rw [if_pos (by rfl)]
    exact strContains_append_return js2
  · rw [if_neg (by simp)]
    exact hb

theorem modernJs_noLegacy (isJson : String → Bool) (gen : Option String) (p : Params)
    (hgen : ∀ s, gen = some s → noLegacy s) :
    noLegacy (modernJs isJson gen p) := by
  unfold modernJs
  dsimp only
  set js1 := (if isJson (firstTruthy [alget p "jsCode", alget p "functionCode",
    alget p "code"]) then ""
    else firstTruthy [alget p "jsCode", alget p "functionCode", alget p "code"])
  have hjs2 : noLegacy (if badTokensModernize.any (fun t => strContains js1 t)
      || pyStrip js1 == "" then generate_code_node_js gen else js1) := by
    split
    · exact gen_js_noLegacy gen hgen
    · next hreg =>
      intro tok htok
      rcases hb : strContains js1 tok with _ | _
      · rfl
      · exfalso
        apply hreg
        have hany : badTokensModernize.any (fun t => strContains js1 t) = true := by
          simp only [List.any_eq_true]
          exact ⟨tok, htok, hb⟩
        rw [hany]
        rfl
  set js2 := (if badTokensModernize.any (fun t => strContains js1 t)
      || pyStrip js1 == "" then generate_code_node_js gen else js1)
  split
  · exact noLegacy_append_return js2 hjs2
  · exact hjs2

theorem modernizeNode_post (isJson : String → Bool) (gen : Option String)
    (n n2 : Node) (h : modernizeNode isJson gen n = .ok n2) :
    (isScriptingType n.type = false → n2 = n) ∧
    (isScriptingType n.type = true →
      ∃ p js, n2.parameters = .val p ∧ alget p "jsCode" = some js ∧
        strContains js "return" = true ∧
        ((∀ s, gen = some s → noLegacy s) → noLegacy js)) := by
  unfold modernizeNode at h
  by_cases hscr : isScriptingType n.type = true
  · rw [if_pos hscr] at h
    dsimp only at h
    have hpar : (if !(lowerChars n.type.data == "n8n-nodes-base.code".data) then
        { n with type := "n8n-nodes-base.code" } else n).parameters = n.parameters := by
      split <;> rfl
    rw [hpar] at h
    constructor
    · intro hcon
      rw [hscr] at hcon
      exact absurd hcon (by simp)
    · intro _
      rcases hp : n.parameters.setdefault [] with _ | _ | p
      · rw [hp] at h
        exact absurd h (by simp)
      · rw [hp] at h
        exact absurd h (by simp)
      · rw [hp] at h
        have hn2 := (Except.ok.inj h).symm
        refine ⟨modernParams isJson gen p, modernJs isJson gen p, by rw [hn2],
          alget_alset_self _ "jsCode" _, modernJs_return isJson gen p,
          fun hg => modernJs_noLegacy isJson gen p hg⟩
  · rw [if_neg hscr] at h
    refine ⟨fun _ => (Except.ok.inj h).symm, fun hcon => absurd hcon hscr⟩

theorem modernizeFrom_post (isJson : String → Bool) (gen : Nat → Option String)
    (i : Nat) (l l2 : List Node) (h : modernizeFrom isJson gen i l = .ok l2) :
    ∀ n2 ∈ l2, isScriptingType n2.type = true →
      ∃ p js, n2.parameters = .val p ∧ alget p "jsCode" = some js ∧
        strContains js "return" = true ∧
        ((∀ j s, gen j = some s → noLegacy s) → noLegacy js) := by
  induction l generalizing i l2 with
  | nil =>
    unfold modernizeFrom at h
    cases h
    intro n2 hn2
    exact absurd hn2 (by simp)
  | cons n rest ih =>
    unfold modernizeFrom at h
    rcases he : modernizeNode isJson (gen i) n with e | m2
    · rw [he] at h
      exact absurd h (by simp)
    · rw [he] at h
      rcases hr : modernizeFrom isJson gen (i + 1) rest with e | rest2
      · rw [hr] at h
        exact absurd h (by simp)
      · rw [hr] at h
        cases h
        intro n2 hn2 hscr2
        rcases List.mem_cons.mp hn2 with rfl | hn2r
        · rcases modernizeNode_post isJson (gen i) n n2 he with ⟨hpass, hproc⟩
          by_cases hscr : isScriptingType n.type = true
          · rcases hproc hscr with ⟨p, js, h1, h2, h3, h4⟩
            exact ⟨p, js, h1, h2, h3, fun hg => h4 (fun s hs => hg i s hs)⟩
          · exfalso
            rw [hpass (by simpa using hscr)] at hscr2
            exact hscr (by exact hscr2)
        · exact ih (i + 1) rest2 hr n2 hn2r hscr2

/-- The modernizer's actual guarantee: every scripting node of a
successful output carries a code body containing `return`; the body is
free of deprecated accessor idioms provided every consulted
regeneration output is itself free of them. -/
theorem modernize_post (isJson : String → Bool) (gen : Nat → Option String)
    (w w2 : Workflow) (h : modernize_code_nodes isJson gen w = .ok w2) :
    ∀ n2 ∈ w2.nodes, isScriptingType n2.type = true →
      ∃ p js, n2.parameters = .val p ∧ alget p "jsCode" = some js ∧
        strContains js "return" = true ∧
        ((∀ j s, gen j = some s → noLegacy s) → noLegacy js) := by
  unfold modernize_code_nodes at h
  rcases hm : modernizeFrom isJson gen 0 w.nodes with e | nodes2
  · rw [hm] at h
    exact absurd h (by simp)
  · rw [hm] at h
    have hw2 := (Except.ok.inj h).symm
    rw [hw2]
    exact modernizeFrom_post isJson gen 0 w.nodes nodes2 hm

/- ============================================================
   C7 layer: terminal failure and absorption in the orchestrator.
   ============================================================ -/

theorem generate_workflow_all_empty (env : GenEnv)
    (h1 : env.primary = some .emptyResp) (h2 : env.rebuild = some .emptyResp) :
    generate_workflow env
      = .error (.wrapped (.valueError
          "Missing required workflow fields: name or nodes")) := by
  unfold generate_workflow
  rw [h1]
  dsimp only [parseStep]
  have he1 : ensure_valid_workflow emptyWorkflow env.genId env.connAI1
      = .error (.valueError "Missing required workflow fields: name or nodes") := rfl
  rw [he1]
  dsimp only
  rw [h2]
  dsimp only
  have he2 : ensure_valid_workflow scaffoldWorkflow env.genId env.connAI2
      = .error (.valueError "Missing required workflow fields: name or nodes") := rfl
  rw [he2]

theorem lintScan_ok (isJson : String → Bool) (l : List Node)
    (h : ∀ n ∈ l, n.parameters ≠ JField.null) :
    ∃ b, lintScan isJson l = .ok b := by
  induction l with
  | nil => exact ⟨false, rfl⟩
  | cons n rest ih =>
    have hrest := ih (fun m hm => h m (List.mem_cons_of_mem _ hm))
    unfold lintScan
    split
    · rcases hp : n.parameters with _ | _ | p
      · exact hrest
      · exact absurd hp (h n (by simp))
      · dsimp only
        split
        · exact ⟨true, rfl⟩
        · exact hrest
    · exact hrest

theorem modernizeNode_ok (isJson : String → Bool) (gen : Option String) (n : Node)
    (h : n.parameters ≠ JField.null) :
    ∃ n2, modernizeNode isJson gen n = .ok n2 := by
  unfold modernizeNode
  split
  · dsimp only
    have hpar : (if !(lowerChars n.type.data == "n8n-nodes-base.code".data) then
        { n with type := "n8n-nodes-base.code" } else n).parameters = n.parameters := by
      split <;> rfl
    rw [hpar]
    rcases hp : n.parameters with _ | _ | p
    · exact ⟨_, rfl⟩
    · exact absurd hp h
    · exact ⟨_, rfl⟩
  · exact ⟨n, rfl⟩

theorem modernizeFrom_ok (isJson : String → Bool) (gen : Nat → Option String)
    (i : Nat) (l : List Node) (h : ∀ n ∈ l, n.parameters ≠ JField.null) :
    ∃ l2, modernizeFrom isJson gen i l = .ok l2 := by
  induction l generalizing i with
  | nil => exact ⟨[], rfl⟩
  | cons n rest ih =>
    rcases modernizeNode_ok isJson (gen i) n (h n (by simp)) with ⟨n2, hn2⟩
    rcases ih (i + 1) (fun m hm => h m (List.mem_cons_of_mem _ hm)) with ⟨rest2, hr⟩
    refine ⟨n2 :: rest2, ?_⟩
    unfold modernizeFrom
    rw [hn2, hr]

theorem modernize_ok (isJson : String → Bool) (gen : Nat → Option String)
    (w : Workflow) (h : ∀ n ∈ w.nodes, n.parameters ≠ JField.null) :
    ∃ w2, modernize_code_nodes isJson gen w = .ok w2 := by
  rcases modernizeFrom_ok isJson gen 0 w.nodes h with ⟨l2, hl2⟩
  refine ⟨{ w with nodes := l2 }, ?_⟩
  unfold modernize_code_nodes
  rw [hl2]

theorem pipelineTail_ok (env : GenEnv) (v : Workflow)
    (hrev : env.review = none) (hlint : env.lintReview = none)
    (hnull : ∀ n ∈ v.nodes, n.parameters ≠ JField.null) :
    ∃ w2, pipelineTail env v = .ok w2 := by
  unfold pipelineTail validate_with_ai
  rw [hrev]
  simp only [Option.getD_none]
  rcases lintScan_ok env.isJson v.nodes hnull with ⟨b, hb⟩
  unfold lint_code_nodes
  rw [hb]
  dsimp only
  rcases b with _ | _
  · rw [if_neg (by simp)]
    dsimp only
    exact modernize_ok env.isJson env.codeGen v hnull
  · rw [if_pos rfl]
    unfold validate_with_ai
    rw [hlint]
    simp only [Option.getD_none]
    exact modernize_ok env.isJson env.codeGen v hnull

theorem enrichNode_params_not_null (i : Nat) (n n2 : Node)
    (h : enrichNode i n = .ok n2) (hp : n.parameters ≠ JField.null) :
    n2.parameters ≠ JField.null := by
  unfold enrichNode at h
  split at h
  · split at h
    · cases h
      simp
    · exact absurd h (by simp)
  · cases h
    rcases hpar : n.parameters with _ | _ | p
    · simp [JField.setdefault, hpar]
    · exact absurd hpar hp
    · simp [JField.setdefault, hpar]

theorem ensure_no_null_params (w : Workflow) (genId : String) (aiConn : Conn)
    (v : Workflow) (h : ensure_valid_workflow w genId aiConn = .ok v)
    (hnull : ∀ n ∈ w.nodes, n.parameters ≠ JField.null) :
    ∀ n ∈ v.nodes, n.parameters ≠ JField.null := by
  rcases ensure_ok_spec w genId aiConn v h with ⟨nodes2, henr, _, _, hv⟩
  rw [hv]
  intro n2 hn2
  rcases enrichFrom_mem 0 _ nodes2 henr n2 hn2 with ⟨n, hn, j, hj⟩
  exact enrichNode_params_not_null j n n2 hj (hnull n (mem_reorder _ n hn))

/-- Failures of connection inference (`connAI1` arbitrary, including
empty), of the semantic review (`review = none`), of the lint-triggered
review (`lintReview = none`) and of every per-node code regeneration
call (`codeGen` arbitrary, including always-failing) are absorbed: the
pipeline still returns a graph. -/
theorem generate_workflow_absorbs (env : GenEnv) (w v : Workflow)
    (hp : env.primary = some (.parsed w))
    (hok : ensure_valid_workflow w env.genId env.connAI1 = .ok v)
    (hrev : env.review = none) (hlint : env.lintReview = none)
    (hnull : ∀ n ∈ w.nodes, n.parameters ≠ JField.null) :
    ∃ w2, generate_workflow env = .ok w2 := by
  have hvnull := ensure_no_null_params w env.genId env.connAI1 v hok hnull
  rcases pipelineTail_ok env v hrev hlint hvnull with ⟨w2, hw2⟩
  refine ⟨w2, ?_⟩
  unfold generate_workflow
  rw [hp]
  dsimp only [parseStep]
  rw [hok]
  dsimp only
  rw [hw2]

/- ============================================================
   Concrete fixtures used by witnesses and counterexamples.
   ============================================================ -/

def exNodeA : Node := ⟨"A", "a", .missing, .missing, .missing⟩

def exNodeB : Node := ⟨"B", "b", .missing, .missing, .missing⟩

def exHttp : Node := ⟨"HTTP", "n8n-nodes-base.httpRequest", .missing, .missing, .missing⟩

def exCron : Node := ⟨"Cron", "cron", .missing, .missing, .missing⟩

/-- A mutual two-node cycle `A -> B`, `B -> A`. -/
def exMutualConn : Conn := [("A", ⟨[[linkTo "B"]]⟩), ("B", ⟨[[linkTo "A"]]⟩)]

def exSettingsOut : SettingsJ := ⟨some "UTC", some "sequential", some true⟩

/-- Scenario A input: an HTTP node before a Cron node, no connections. -/
def exW3 : Workflow := ⟨some "W", [exHttp, exCron], none, false, none, none, []⟩

def exCronOut : Node := ⟨"Cron", "cron", .val [], .val 1, .val (200, 300)⟩

def exHttpOut : Node :=
  ⟨"HTTP", "n8n-nodes-base.httpRequest", .val [("responseFormat", "json")],
    .val 1, .val (420, 300)⟩

/-- Scenario A output: Cron first, fallback chain Cron -> HTTP. -/
def exW3out : Workflow :=
  ⟨some "W", [exCronOut, exHttpOut], some "AI-1", false, some ["ai-generated"],
    some exSettingsOut, [("Cron", ⟨[[linkTo "HTTP"]]⟩)]⟩

/-- Mutual-cycle input whose sanitization leaves an emptied branch. -/
def exW4 : Workflow := ⟨some "W", [exNodeA, exNodeB], none, false, none, none, exMutualConn⟩

def exNodeAOut : Node := ⟨"A", "a", .val [], .val 1, .val (200, 300)⟩

def exNodeBOut : Node := ⟨"B", "b", .val [], .val 1, .val (420, 300)⟩

def exW4run1 : Workflow :=
  ⟨some "W", [exNodeAOut, exNodeBOut], some "AI-1", false, some ["ai-generated"],
    some exSettingsOut, [("A", ⟨[[linkTo "B"]]⟩), ("B", ⟨[[]]⟩)]⟩

/-- A node carrying an explicit `"parameters": null`. -/
def exW5 : Workflow :=
  ⟨some "W", [⟨"X", "custom", .null, .missing, .missing⟩], none, false, none, none, []⟩

def exW5out : Workflow :=
  ⟨some "W", [⟨"X", "custom", .null, .val 1, .val (200, 300)⟩], some "AI-1", false,
    some ["ai-generated"], some exSettingsOut, []⟩

/-- A structurally complete graph whose HTTP node carries null
parameters: validation raises AttributeError, not the missing-fields
ValueError. -/
def exW5b : Workflow :=
  ⟨some "W", [⟨"X", "n8n-nodes-base.httpRequest", .null, .missing, .missing⟩],
    none, false, none, none, []⟩

/-- Orchestrator environment: every generative call yields empty content. -/
def exEnvEmpty : GenEnv :=
  ⟨some .emptyResp, none, [], "AI-1", some .emptyResp, none, [], none, none,
    fun _ => false, fun _ => none⟩

/-- Orchestrator environment: the primary call parses to a usable
graph, every other AI call fails. -/
def exEnvGood : GenEnv :=
  ⟨some (.parsed exW3), none, [], "AI-1", some .emptyResp, none, [], none, none,
    fun _ => false, fun _ => none⟩

/-- Orchestrator environment: usable primary content, but validation
raises a non-structural error. -/
def exEnvBad : GenEnv :=
  ⟨some (.parsed exW5b), none, [], "AI-1", some .emptyResp, none, [], none, none,
    fun _ => false, fun _ => none⟩

/-- A scripting node with a legacy code body. -/
def exWC : Workflow :=
  ⟨some "W", [⟨"C1", "code", .val [("jsCode", "$json")], .val 1, .val (200, 300)⟩],
    some "AI-1", false, some [], some exSettingsOut, []⟩

/-- An adversarial regeneration output: contains `return` and the
batch-all accessor, so the safety net keeps it, but it still references
`$json`. -/
def exGenBad : Nat → Option String :=
  fun _ => some "const items = $input.all();\nreturn items.map(x => $json);"

def exWCbadOut : Workflow :=
  ⟨some "W", [⟨"C1", "n8n-nodes-base.code",
      .val [("jsCode", "const items = $input.all();\nreturn items.map(x => $json);"),
        ("language", "JavaScript")], .val 1, .val (200, 300)⟩],
    some "AI-1", false, some [], some exSettingsOut, []⟩

/-- A regeneration oracle that always fails. -/
def exGenNone : Nat → Option String := fun _ => none

def exWCgoodNode : Node :=
  ⟨"C1", "n8n-nodes-base.code",
    .val [("jsCode", "const items = $input.all();\nreturn items;"),
      ("language", "JavaScript")], .val 1, .val (200, 300)⟩

def exWCgoodOut : Workflow :=
  ⟨some "W", [exWCgoodNode], some "AI-1", false, some [], some exSettingsOut, []⟩

/- ============================================================
   Claim theorems.
   ============================================================ -/

/-- C1: every link retained by `sanitize_connections(C, N)` has a
source that names a node of `N` and a target that names a node of `N`
and differs from its source — no dangling edge or self-loop survives. -/
theorem claim_C1_sanitized_links_valid (C : Conn) (N : List Node) :
    ∀ p ∈ sanitize_connections C N, ∀ b ∈ p.2.main, ∀ l ∈ b,
      p.1 ∈ validNames N ∧ ∃ d, l.node = some d ∧ d ∈ validNames N ∧ d ≠ p.1 := by
  intro p hp b hb l hl
  rcases sanitize_valid C N p hp with ⟨h1, h2⟩
  exact ⟨h1, h2 b hb l hl⟩

theorem claim_C1_witness :
    "A" ∈ validNames [exNodeA, exNodeB] ∧
      ∃ d, (linkTo "B").node = some d ∧ d ∈ validNames [exNodeA, exNodeB] ∧ d ≠ "A" :=
  claim_C1_sanitized_links_valid exMutualConn [exNodeA, exNodeB]
    ("A", ⟨[[linkTo "B"]]⟩) (by decide) [linkTo "B"] (by decide) (linkTo "B") (by decide)

/-- C2: the sanitized output never contains both `A -> B` and `B -> A`;
when the input holds a mutual two-node cycle between two genuine,
distinct nodes, the edge whose source entry is scanned first survives
and its reverse (the back-edge) is removed. -/
theorem claim_C2_no_mutual_forward_kept :
    (∀ C N a b, edgeB (sanitize_connections C N) a b = true →
      edgeB (sanitize_connections C N) b a = false) ∧
    (∀ C N A B, (C.map Prod.fst).Nodup → A ∈ validNames N → B ∈ validNames N →
      A ≠ B → edgeB C A B = true → edgeB C B A = true →
      [A, B].Sublist (C.map Prod.fst) →
      edgeB (sanitize_connections C N) A B = true ∧
        edgeB (sanitize_connections C N) B A = false) :=
  ⟨fun C N a b h => sanitize_no_mutual C N a b h,
    fun C N A B h1 h2 h3 h4 h5 h6 h7 =>
      sanitize_forward_helper C N A B h1 h2 h3 h4 h5 h6 h7⟩

theorem claim_C2_witness :
    edgeB (sanitize_connections exMutualConn [exNodeA, exNodeB]) "B" "A" = false ∧
      (edgeB (sanitize_connections exMutualConn [exNodeA, exNodeB]) "A" "B" = true ∧
        edgeB (sanitize_connections exMutualConn [exNodeA, exNodeB]) "B" "A" = false) :=
  ⟨claim_C2_no_mutual_forward_kept.1 exMutualConn [exNodeA, exNodeB] "A" "B" (by decide),
    claim_C2_no_mutual_forward_kept.2 exMutualConn [exNodeA, exNodeB] "A" "B"
      (by decide) (by decide) (by decide) (by decide) (by decide) (by decide) (by decide)⟩

/-- C3: when validation succeeds, the resulting node order has every
trigger-typed node (case-insensitive substring match against
cron/webhook/schedule/trigger) before every non-trigger node, each
class keeping its input order. -/
theorem claim_C3_triggers_first (w : Workflow) (genId : String) (aiConn : Conn)
    (w2 : Workflow)
    (_hex1 : ∃ n ∈ w.nodes, isTriggerType n.type = true)
    (_hex2 : ∃ n ∈ w.nodes, isTriggerType n.type = false)
    (h : ensure_valid_workflow w genId aiConn = .ok w2) :
    w2.nodes.map (fun n => (n.name, n.type))
      = (w.nodes.filter (fun n => isTriggerType n.type)).map (fun n => (n.name, n.type))
        ++ (w.nodes.filter (fun n => !isTriggerType n.type)).map
            (fun n => (n.name, n.type)) := by
  rcases ensure_ok_spec w genId aiConn w2 h with ⟨nodes2, henr, _, _, hw2⟩
  rw [hw2]
  dsimp only
  have hsig := enrichFrom_sig 0 _ nodes2 henr
  rw [hsig, reorder_eq_filter, List.map_append]

theorem claim_C3_witness :
    exW3out.nodes.map (fun n => (n.name, n.type))
      = (exW3.nodes.filter (fun n => isTriggerType n.type)).map (fun n => (n.name, n.type))
        ++ (exW3.nodes.filter (fun n => !isTriggerType n.type)).map
            (fun n => (n.name, n.type)) :=
  claim_C3_triggers_first exW3 "AI-1" [] exW3out
    ⟨exCron, by decide, by decide⟩ ⟨exHttp, by decide, by decide⟩ (by decide)

/-- C4 counterexample: validation is not idempotent.  On a mutual
two-node cycle the first run leaves an emptied branch in the
connections; the second run drops it, so the second output differs
from the first. -/
theorem claim_C4_counterexample :
    ensure_valid_workflow exW4 "AI-1" [] = .ok exW4run1 ∧
      ensure_valid_workflow exW4run1 "AI-1" [] ≠ .ok exW4run1 := by
  constructor
  · decide
  · decide

/-- C4 (amended): re-running validation on its own output is the
identity provided the first output's connections are non-empty and
none of their branches was emptied by cycle breaking; the second run
then consults no AI inference (its result parameter is irrelevant). -/
theorem claim_C4_idempotent_no_empty_branch (w : Workflow) (genId : String)
    (aiConn aiConn2 : Conn) (w1 : Workflow)
    (h1 : ensure_valid_workflow w genId aiConn = .ok w1)
    (hne : w1.connections ≠ [])
    (hnb : ∀ p ∈ w1.connections, ∀ b ∈ p.2.main, b ≠ []) :
    ensure_valid_workflow w1 genId aiConn2 = .ok w1 :=
  ensure_idem w genId aiConn aiConn2 w1 h1 hne hnb

theorem claim_C4_witness :
    ensure_valid_workflow exW3out "AI-1" [] = .ok exW3out :=
  claim_C4_idempotent_no_empty_branch exW3 "AI-1" [] [] exW3out
    (by decide) (by decide) (by decide)

/-- C5 counterexample: a node whose input carries `"parameters": null`
keeps the null through a successful validation — `setdefault` only
fills absent keys. -/
theorem claim_C5_counterexample :
    ensure_valid_workflow exW5 "AI-1" [] = .ok exW5out ∧
      ¬ (∀ n ∈ exW5out.nodes, n.parameters.isVal = true) := by
  constructor
  · decide
  · decide

/-- C5 (amended): after a successful validation every node whose input
did not carry an explicit null has concrete `parameters`,
`typeVersion` and `position`; keys that were absent are defaulted,
explicit nulls are left in place. -/
theorem claim_C5_fields_defaulted (w : Workflow) (genId : String) (aiConn : Conn)
    (w2 : Workflow) (h : ensure_valid_workflow w genId aiConn = .ok w2)
    (hnn : ∀ n ∈ w.nodes, n.parameters ≠ JField.null ∧
      n.typeVersion ≠ JField.null ∧ n.position ≠ JField.null) :
    ∀ n2 ∈ w2.nodes, n2.parameters.isVal = true ∧
      n2.typeVersion.isVal = true ∧ n2.position.isVal = true := by
  rcases ensure_ok_spec w genId aiConn w2 h with ⟨nodes2, henr, _, _, hw2⟩
  rw [hw2]
  intro n2 hn2
  rcases enrichFrom_mem 0 _ nodes2 henr n2 hn2 with ⟨n, hn, j, hj⟩
  have hf := hnn n (mem_reorder _ n hn)
  exact enrichNode_val_fields j n n2 hj hf.1 hf.2.1 hf.2.2

theorem claim_C5_witness :
    exCronOut.parameters.isVal = true ∧
      exCronOut.typeVersion.isVal = true ∧ exCronOut.position.isVal = true :=
  claim_C5_fields_defaulted exW3 "AI-1" [] exW3out (by decide) (by decide)
    exCronOut (by decide)

/-- C6: on the two-node HTTP/Cron input with no connections and failed
AI inference, validation reorders to [Cron, HTTP] and produces the
fallback chain `{Cron: {main: [[{node: HTTP, type: main, index: 0}]]}}`;
in general, with empty input connections, failed inference and unique
node names, the output connections are the sanitized successor chain
over the trigger-reordered node names. -/
theorem claim_C6_fallback_chain :
    (ensure_valid_workflow exW3 "AI-1" [] = .ok exW3out ∧
      exW3out.nodes.map Node.name = ["Cron", "HTTP"] ∧
      exW3out.connections = [("Cron", ⟨[[⟨some "HTTP", some "main", some 0⟩]]⟩)]) ∧
    (∀ w genId w2, w.connections = [] → (w.nodes.map Node.name).Nodup →
      ensure_valid_workflow w genId [] = .ok w2 →
      w2.connections
        = sanitize_connections (chainPairs (w2.nodes.map Node.name)) w2.nodes) :=
  ⟨⟨by decide, by decide, by decide⟩,
    fun w genId w2 h1 h2 h3 => ensure_fallback_conns w genId w2 h1 h2 h3⟩

theorem claim_C6_witness :
    exW3out.connections
      = sanitize_connections (chainPairs (exW3out.nodes.map Node.name)) exW3out.nodes :=
  claim_C6_fallback_chain.2 exW3 "AI-1" exW3out (by decide) (by decide) (by decide)

/-- C7 counterexample: the structured call yields a usable graph
(truthy name, non-empty nodes), yet the pipeline still reaches the
single wrapped terminal failure, because validation raises
AttributeError on a null-parameters HTTP node — so terminal failure is
not reached only when all generative stages yield nothing usable. -/
theorem claim_C7_counterexample :
    truthyStr exW5b.name = true ∧ exW5b.nodes ≠ [] ∧
      generate_workflow exEnvBad = .error (.wrapped .attributeError) := by
  refine ⟨by decide, by decide, by decide⟩

/-- C7 (amended): when the primary structured call and the rebuild
call both yield empty content, the orchestrator raises exactly one
wrapped error carrying the innermost missing-fields cause and returns
no graph; failures of connection inference, of the semantic review, of
the lint-triggered review and of code regeneration are absorbed with
substitute values — but a validation error other than the structural
one also reaches the terminal failure. -/
theorem claim_C7_terminal_failure :
    (∀ env : GenEnv, env.primary = some .emptyResp → env.rebuild = some .emptyResp →
      generate_workflow env = .error (.wrapped (.valueError
        "Missing required workflow fields: name or nodes"))) ∧
    (∀ env w v, env.primary = some (.parsed w) →
      ensure_valid_workflow w env.genId env.connAI1 = .ok v →
      env.review = none → env.lintReview = none →
      (∀ n ∈ w.nodes, n.parameters ≠ JField.null) →
      ∃ w2, generate_workflow env = .ok w2) :=
  ⟨fun env h1 h2 => generate_workflow_all_empty env h1 h2,
    fun env w v h1 h2 h3 h4 h5 => generate_workflow_absorbs env w v h1 h2 h3 h4 h5⟩

theorem claim_C7_witness :
    generate_workflow exEnvEmpty = .error (.wrapped (.valueError
        "Missing required workflow fields: name or nodes")) ∧
      ∃ w2, generate_workflow exEnvGood = .ok w2 :=
  ⟨claim_C7_terminal_failure.1 exEnvEmpty rfl rfl,
    claim_C7_terminal_failure.2 exEnvGood exW3 exW3out rfl (by decide) rfl rfl
      (by decide)⟩

/-- C8 counterexample: the legacy check runs before regeneration, so a
regenerated body that contains `return` and the batch-all accessor but
still references `$json` is stored verbatim: the modernized scripting
node's code references a deprecated accessor. -/
theorem claim_C8_counterexample :
    modernize_code_nodes (fun _ => false) exGenBad exWC = .ok exWCbadOut ∧
      isScriptingType "n8n-nodes-base.code" = true ∧
      strContains "const items = $input.all();\nreturn items.map(x => $json);"
        "$json" = true := by
  refine ⟨by decide, by decide, by decide⟩

/-- C8 (amended): after a successful modernization pass every
scripting node's code body contains `return`; it is free of deprecated
single-item accessor idioms provided every consulted regeneration
output is itself free of them. -/
theorem claim_C8_modernize_guarantee (isJson : String → Bool)
    (gen : Nat → Option String) (w w2 : Workflow)
    (h : modernize_code_nodes isJson gen w = .ok w2) :
    ∀ n2 ∈ w2.nodes, isScriptingType n2.type = true →
      ∃ p js, n2.parameters = .val p ∧ alget p "jsCode" = some js ∧
        strContains js "return" = true ∧
        ((∀ j s, gen j = some s → noLegacy s) → noLegacy js) :=
  modernize_post isJson gen w w2 h

theorem claim_C8_witness :
    ∃ p js, exWCgoodNode.parameters = .val p ∧ alget p "jsCode" = some js ∧
      strContains js "return" = true ∧
      ((∀ j s, exGenNone j = some s → noLegacy s) → noLegacy js) :=
  claim_C8_modernize_guarantee (fun _ => false) exGenNone exWC exWCgoodOut
    (by decide) exWCgoodNode (by decide) (by decide)

/-- C9: under the dict guarantee of unique source keys,
`sanitize_connections` is a pure filter of its input: output source
entries are an ordered selection of input entries, their branches an
ordered selection of the entry's input branches, and each kept branch
an ordered selection of the corresponding input branch's links, kept
with identical contents. -/
theorem claim_C9_pure_filter (C : Conn) (N : List Node)
    (hnd : (C.map Prod.fst).Nodup) :
    connRef (sanitize_connections C N) C :=
  sanitize_connRef C N hnd

theorem claim_C9_witness :
    connRef (sanitize_connections exMutualConn [exNodeA, exNodeB]) exMutualConn :=
  claim_C9_pure_filter exMutualConn [exNodeA, exNodeB] (by decide)

/-- C10: the cycle-breaking second pass removes back-edge links in
place but never drops a source entry or a branch it empties — keys and
branch counts are preserved exactly — so a source whose only outgoing
link was a removed back-edge stays in the output mapped to an
edge-group holding one empty branch. -/
theorem claim_C10_empty_branch_kept :
    sanitize_connections exMutualConn [exNodeA, exNodeB]
      = [("A", ⟨[[linkTo "B"]]⟩), ("B", ⟨[[]]⟩)] ∧
    (∀ out : Conn, (breakCycles out).map Prod.fst = out.map Prod.fst ∧
      List.Forall₂ (fun a b => a.1 = b.1 ∧ a.2.main.length = b.2.main.length)
        (breakCycles out) out) :=
  ⟨by decide, fun out => breakCycles_shape out⟩

end AITaskArchitect
